import Mathlib

/-!
Verification of the hermit ingestion/retrieval core against its
natural-language specification.  The Go source is shallowly embedded:
pure functions become Lean functions over `List Char` (Go strings are
byte slices; the embedded inputs are ASCII, where byte and character
indices coincide), stateful repository operations become explicit
state-passing functions, and fallible operations return `Option` or
`Except`.
-/

namespace Hermit

/-- Character class of Go's regexp `\s`, namely `[\t\n\f\r ]`. -/
def rspaceChar (c : Char) : Bool :=
  c = ' ' || c = '\t' || c = '\n' || c = '\x0c' || c = '\r'

/-- Character class of Go's `unicode.IsSpace`, used by `strings.TrimSpace`. -/
def goIsSpace (c : Char) : Bool :=
  c = ' ' || c = '\t' || c = '\n' || c = '\x0b' || c = '\x0c' || c = '\r' ||
  c.toNat = 0x85 || c.toNat = 0xA0 || c.toNat = 0x1680 ||
  (0x2000 ≤ c.toNat && c.toNat ≤ 0x200A) ||
  c.toNat = 0x2028 || c.toNat = 0x2029 || c.toNat = 0x202F ||
  c.toNat = 0x205F || c.toNat = 0x3000

/-- Embedding of Go `strings.TrimSpace`: drop leading and trailing
`unicode.IsSpace` characters. -/
def trimChars (l : List Char) : List Char :=
  ((l.dropWhile goIsSpace).reverse.dropWhile goIsSpace).reverse

/-- Sentence-terminator class of `chunk.go`'s regexp `[.!?]+\s+`. -/
def termChar (c : Char) : Bool :=
  c = '.' || c = '!' || c = '?'

/-- ChunkSize from `chunk.go`: maximum size of each chunk in characters. -/
def ChunkSize : Nat := 800

/-- OverlapSize from `chunk.go`: overlap between chunks. -/
def OverlapSize : Nat := 100

/-- One step of Go `regexp.Split` for the pattern `[.!?]+\s+`: at a
terminator character whose maximal terminator run is followed by at
least one `\s` character, the run together with the following
whitespace run is a separator (the regexp is greedy, so each match is a
maximal run of terminators followed by a maximal run of whitespace).
`fuel` bounds the recursion; `splitGo` supplies enough for the whole
input. -/
def splitGoAux : Nat → List Char → List Char → List (List Char)
  | 0, _, cur => [cur.reverse]
  | _ + 1, [], cur => [cur.reverse]
  | fuel + 1, c :: rest, cur =>
    if termChar c ∧ ((rest.dropWhile termChar).head?.any rspaceChar) then
      cur.reverse ::
        splitGoAux fuel ((rest.dropWhile termChar).dropWhile rspaceChar) []
    else
      splitGoAux fuel rest (c :: cur)

/-- Embedding of `sentenceRegex.Split(text, -1)` from `chunk.go`. -/
def splitGo (l : List Char) : List (List Char) :=
  splitGoAux (l.length + 1) l []

/-- Index of the last `' '` in `l`, or `none`; Go `strings.LastIndex(l, " ")`
(which returns `-1` when there is no occurrence). -/
def lastSpaceIdx : List Char → Option Nat
  | [] => none
  | c :: rest =>
    match lastSpaceIdx rest with
    | some j => some (j + 1)
    | none => if c = ' ' then some 0 else none

/-- Adjustment of the overlap start index by the last space found in the
tail, from `chunk.go`: `if lastSpace > 0 { overlapStart += lastSpace + 1 }`. -/
def seedStartAux (start : Nat) : Option Nat → Nat
  | some ls => if 0 < ls then start + ls + 1 else start
  | none => start

/-- Start index of the overlap seed inside an emitted chunk buffer:
`len - OverlapSize` (Go clamps at 0, which is Nat subtraction here),
advanced past the last space of that tail when one sits at a positive
index. -/
def seedStart (buf : List Char) : Nat :=
  seedStartAux (buf.length - OverlapSize) (lastSpaceIdx (buf.drop (buf.length - OverlapSize)))

/-- Overlap seed taken from an emitted chunk buffer, from `chunk.go`:
the suffix `chunkStr[overlapStart:]`. -/
def overlapSeed (buf : List Char) : List Char := buf.drop (seedStart buf)

/-- The sentence-packing loop of `ChunkText`: greedily pack sentences
into a buffer; when the next sentence would push past `ChunkSize`,
emit the trimmed buffer and reseed it with the overlap suffix.  The
tracked `currentLen` of the Go code always equals the buffer length,
so it is not modelled separately. -/
def chunkLoop : List (List Char) → List Char → List (List Char) → List (List Char)
  | [], buf, acc =>
    if 0 < buf.length then acc ++ [trimChars buf] else acc
  | s :: rest, buf, acc =>
    if ChunkSize < buf.length + s.length ∧ 0 < buf.length then
      chunkLoop rest
        (if 0 < (overlapSeed buf).length then overlapSeed buf ++ ' ' :: s else s)
        (acc ++ [trimChars buf])
    else
      chunkLoop rest (if 0 < buf.length then buf ++ ' ' :: s else s) acc

/-- Fallback of `ChunkText` when no chunks were produced: fixed-stride
character slicing with stride `ChunkSize - OverlapSize`. -/
def fallbackSlices (t : List Char) : List (List Char) :=
  (List.range ((t.length + (ChunkSize - OverlapSize) - 1) / (ChunkSize - OverlapSize))).map
    (fun k => ((t.drop ((ChunkSize - OverlapSize) * k)).take ChunkSize))

/-- The sentence list built inside `ChunkText`: split the trimmed text on
the sentence regexp, trim each piece, and skip empty pieces. -/
def sentencesOf (text : List Char) : List (List Char) :=
  ((splitGo (trimChars text)).map trimChars).filter (fun s => s.length ≠ 0)

/-- Embedding of `ChunkText` from `internal/vectorizer/chunk.go`. -/
def ChunkText (text : List Char) : List (List Char) :=
  if (trimChars text).length = 0 then []
  else if (chunkLoop (sentencesOf text) [] []).length = 0 ∧ 0 < (trimChars text).length
    then fallbackSlices (trimChars text)
  else chunkLoop (sentencesOf text) [] []

/-- Join a list of sentences with single spaces, as the packing loop does. -/
def spaceJoin : List (List Char) → List Char
  | [] => []
  | [s] => s
  | s :: rest => s ++ ' ' :: spaceJoin rest

/-- Length of the longest sentence of `text` (0 when there is none). -/
def maxSentLen (text : List Char) : Nat :=
  ((sentencesOf text).map List.length).foldr max 0

/-- Concatenation of a list of character lists. -/
def concatAll (L : List (List Char)) : List Char := L.foldr (· ++ ·) []

/-- Number of leading `unicode.IsSpace` characters of `l`. -/
def leadCount (l : List Char) : Nat := (l.takeWhile goIsSpace).length

lemma concatAll_nil : concatAll [] = [] := rfl

lemma concatAll_cons (x : List Char) (L : List (List Char)) :
    concatAll (x :: L) = x ++ concatAll L := rfl

lemma dropWhile_eq_drop (p : Char → Bool) (l : List Char) :
    l.dropWhile p = l.drop (l.takeWhile p).length := by
  have h : l.drop (l.takeWhile p).length
      = (l.takeWhile p ++ l.dropWhile p).drop (l.takeWhile p).length := by
    rw [List.takeWhile_append_dropWhile]
  rw [h, List.drop_left]

lemma length_dropWhile_le (p : Char → Bool) (l : List Char) :
    (l.dropWhile p).length ≤ l.length := by
  rw [dropWhile_eq_drop, List.length_drop]
  omega

lemma rspace_isSpace {c : Char} (h : rspaceChar c = true) : goIsSpace c = true := by
  simp only [rspaceChar, Bool.or_eq_true, decide_eq_true_eq] at h
  rcases h with (((h | h) | h) | h) | h <;> subst h <;> decide

lemma getLast?_drop_of_ne_nil {l : List Char} {m : Nat} (h : l.drop m ≠ []) :
    (l.drop m).getLast? = l.getLast? := by
  conv_rhs => rw [← List.take_append_drop m l]
  rw [List.getLast?_append_of_ne_nil _ h]

lemma getLast?_dropWhile_of_ne_nil {p : Char → Bool} {l : List Char}
    (h : l.dropWhile p ≠ []) : (l.dropWhile p).getLast? = l.getLast? := by
  rw [dropWhile_eq_drop] at h ⊢
  exact getLast?_drop_of_ne_nil h

lemma trimChars_eq_drop_leadCount {l : List Char}
    (h : l.getLast?.any goIsSpace = false) :
    trimChars l = l.drop (leadCount l) := by
  unfold trimChars leadCount
  rw [← dropWhile_eq_drop]
  rcases hm : l.dropWhile goIsSpace with _ | ⟨c, m'⟩
  · simp
  · have hlast : (l.dropWhile goIsSpace).getLast? = l.getLast? :=
      getLast?_dropWhile_of_ne_nil (by simp [hm])
    rcases hl : (c :: m').reverse with _ | ⟨d, r'⟩
    · exact absurd (congrArg List.length hl) (by simp)
    · have hd : (c :: m').getLast? = some d := by
        rw [← List.head?_reverse, hl]; rfl
      have hds : goIsSpace d = false := by
        have h2 : (c :: m').getLast? = l.getLast? := by rw [← hm]; exact hlast
        rw [hd] at h2
        rw [← h2] at h
        simpa using h
      have hneg : ¬ goIsSpace d = true := by simp [hds]
      rw [List.dropWhile_cons_of_neg hneg, ← hl, List.reverse_reverse]

lemma length_trimChars_le (l : List Char) : (trimChars l).length ≤ l.length := by
  unfold trimChars
  calc ((l.dropWhile goIsSpace).reverse.dropWhile goIsSpace).reverse.length
      = ((l.dropWhile goIsSpace).reverse.dropWhile goIsSpace).length := by
        rw [List.length_reverse]
    _ ≤ (l.dropWhile goIsSpace).reverse.length := length_dropWhile_le _ _
    _ = (l.dropWhile goIsSpace).length := by rw [List.length_reverse]
    _ ≤ l.length := length_dropWhile_le _ _

lemma getLast?_trimChars (l : List Char) :
    (trimChars l).getLast?.any goIsSpace = false := by
  unfold trimChars
  rw [← List.head?_reverse, List.reverse_reverse]
  have := List.head?_dropWhile_not goIsSpace (l.dropWhile goIsSpace).reverse
  rcases hh : ((l.dropWhile goIsSpace).reverse.dropWhile goIsSpace).head? with _ | c
  · rfl
  · rw [hh] at this; simpa using this

lemma head?_trimChars (l : List Char) :
    (trimChars l).head?.any goIsSpace = false := by
  unfold trimChars
  set z := (l.dropWhile goIsSpace).reverse.dropWhile goIsSpace with hz
  rcases hzz : z with _ | ⟨c, z'⟩
  · simp
  · have hne : z ≠ [] := by rw [hzz]; simp
    have h1 : z.reverse.head? = z.getLast? := List.head?_reverse z
    have h2 : z.getLast? = (l.dropWhile goIsSpace).reverse.getLast? :=
      getLast?_dropWhile_of_ne_nil hne
    have h3 : (l.dropWhile goIsSpace).reverse.getLast? = (l.dropWhile goIsSpace).head? :=
      List.getLast?_reverse _
    have h4 := List.head?_dropWhile_not goIsSpace l
    rw [← hzz, h1, h2, h3]
    rcases hh : (l.dropWhile goIsSpace).head? with _ | d
    · rfl
    · rw [hh] at h4; simpa using h4

lemma trimChars_ne_nil {l : List Char} (hne : l ≠ [])
    (h : l.getLast?.any goIsSpace = false) : trimChars l ≠ [] := by
  rw [trimChars_eq_drop_leadCount h]
  intro hcon
  have h1 : l.dropWhile goIsSpace = [] := by
    rw [dropWhile_eq_drop]; exact hcon
  have h2 : ∀ x ∈ l, goIsSpace x = true := List.dropWhile_eq_nil_iff.mp h1
  rcases hl : l.getLast? with _ | c
  · rw [List.getLast?_eq_none_iff] at hl; exact hne hl
  · have hc : c ∈ l := List.mem_of_mem_getLast? (by rw [hl]; rfl)
    have := h2 c hc
    rw [hl] at h; simp [this] at h

lemma lastSpaceIdx_lt_length {l : List Char} {j : Nat}
    (h : lastSpaceIdx l = some j) : j < l.length := by
  induction l generalizing j with
  | nil => simp [lastSpaceIdx] at h
  | cons c rest ih =>
    simp only [lastSpaceIdx] at h
    rcases hr : lastSpaceIdx rest with _ | j'
    · simp only [hr] at h
      by_cases hc : c = ' '
      · rw [if_pos hc] at h
        injection h with h
        simp only [List.length_cons]
        omega
      · rw [if_neg hc] at h
        exact absurd h (by simp)
    · simp only [hr, Option.some.injEq] at h
      have := ih hr
      simp only [List.length_cons]
      omega

lemma lastSpaceIdx_lt_of_last_ne {l : List Char} {j : Nat}
    (h : lastSpaceIdx l = some j) (hl : l.getLast? ≠ some ' ') :
    j + 1 < l.length := by
  induction l generalizing j with
  | nil => simp [lastSpaceIdx] at h
  | cons c rest ih =>
    simp only [lastSpaceIdx] at h
    rcases hr : lastSpaceIdx rest with _ | j'
    · simp only [hr] at h
      by_cases hc : c = ' '
      · rw [if_pos hc] at h
        injection h with h
        rcases hrest : rest with _ | ⟨d, r'⟩
        · exfalso
          rw [hrest] at hl
          rw [hc] at hl
          simp [List.getLast?] at hl
        · simp only [List.length_cons]
          omega
      · rw [if_neg hc] at h
        exact absurd h (by simp)
    · simp only [hr, Option.some.injEq] at h
      have hrne : rest ≠ [] := by
        intro hcon
        rw [hcon] at hr
        simp [lastSpaceIdx] at hr
      have hgl : (c :: rest).getLast? = rest.getLast? := by
        have h2 : c :: rest = [c] ++ rest := rfl
        rw [h2, List.getLast?_append_of_ne_nil _ hrne]
      rw [hgl] at hl
      have := ih hr hl
      simp only [List.length_cons]
      omega

lemma seedStart_ge (buf : List Char) : buf.length - OverlapSize ≤ seedStart buf := by
  unfold seedStart
  rcases h : lastSpaceIdx (buf.drop (buf.length - OverlapSize)) with _ | ls
  · simp [seedStartAux]
  · by_cases hls : 0 < ls
    · simp only [seedStartAux, if_pos hls]
      omega
    · simp only [seedStartAux, if_neg hls]
      omega

lemma overlapSeed_eq_drop (buf : List Char) :
    ∃ m, overlapSeed buf = buf.drop m ∧ buf.length - OverlapSize ≤ m :=
  ⟨seedStart buf, rfl, seedStart_ge buf⟩

lemma length_overlapSeed_le (buf : List Char) :
    (overlapSeed buf).length ≤ OverlapSize := by
  obtain ⟨m, hm, hge⟩ := overlapSeed_eq_drop buf
  rw [hm, List.length_drop]
  omega

lemma seedStart_lt {buf : List Char} (hne : buf ≠ [])
    (h : buf.getLast?.any goIsSpace = false) : seedStart buf < buf.length := by
  have hlen : 0 < buf.length := List.length_pos.mpr hne
  have hlast : buf.getLast? ≠ some ' ' := by
    intro hcon
    rw [hcon] at h
    simp [goIsSpace] at h
  unfold seedStart
  rcases hls : lastSpaceIdx (buf.drop (buf.length - OverlapSize)) with _ | ls
  · simp only [seedStartAux, OverlapSize]
    omega
  · by_cases hp : 0 < ls
    · simp only [seedStartAux, if_pos hp]
      have htne : buf.drop (buf.length - OverlapSize) ≠ [] := by
        rw [Ne, List.drop_eq_nil_iff]
        simp only [OverlapSize]
        omega
      have hgl : (buf.drop (buf.length - OverlapSize)).getLast? = buf.getLast? :=
        getLast?_drop_of_ne_nil htne
      have hlt := lastSpaceIdx_lt_of_last_ne hls (by rw [hgl]; exact hlast)
      rw [List.length_drop] at hlt
      omega
    · simp only [seedStartAux, if_neg hp, OverlapSize]
      omega

lemma overlapSeed_ne_nil {buf : List Char} (hne : buf ≠ [])
    (h : buf.getLast?.any goIsSpace = false) : overlapSeed buf ≠ [] := by
  have := seedStart_lt hne h
  rw [overlapSeed, Ne, List.drop_eq_nil_iff]
  omega

lemma takeWhile_append_of_exists {p : Char → Bool} {a : List Char}
    (b : List Char) (h : ∃ x ∈ a, p x = false) :
    (a ++ b).takeWhile p = a.takeWhile p := by
  induction a with
  | nil => simp at h
  | cons c a' ih =>
    by_cases hc : p c = true
    · have hcons : List.takeWhile p (c :: (a' ++ b)) = c :: List.takeWhile p (a' ++ b) :=
        List.takeWhile_cons_of_pos hc
      have hcons2 : List.takeWhile p (c :: a') = c :: List.takeWhile p a' :=
        List.takeWhile_cons_of_pos hc
      obtain ⟨x, hx, hpx⟩ := h
      rcases List.mem_cons.mp hx with hxc | hxa
      · subst hxc; rw [hpx] at hc; exact absurd hc (by simp)
      · have := ih ⟨x, hxa, hpx⟩
        simp only [List.cons_append]
        rw [hcons, hcons2, this]
    · have hc' : ¬ p c = true := hc
      simp only [List.cons_append]
      rw [List.takeWhile_cons_of_neg hc', List.takeWhile_cons_of_neg hc']

lemma leadCount_le_length (l : List Char) : leadCount l ≤ l.length := by
  unfold leadCount
  have := List.takeWhile_append_dropWhile goIsSpace l
  have h2 := congrArg List.length this
  rw [List.length_append] at h2
  omega

lemma leadCount_append_le {a : List Char} (b : List Char)
    (h : ∃ x ∈ a, goIsSpace x = false) :
    leadCount (a ++ b) ≤ a.length := by
  unfold leadCount
  rw [takeWhile_append_of_exists b h]
  exact leadCount_le_length a

lemma exists_not_space_of_lastOk {a : List Char} (hne : a ≠ [])
    (h : a.getLast?.any goIsSpace = false) : ∃ x ∈ a, goIsSpace x = false := by
  rcases hl : a.getLast? with _ | c
  · rw [List.getLast?_eq_none_iff] at hl; exact absurd hl hne
  · refine ⟨c, List.mem_of_mem_getLast? (by rw [hl]; rfl), ?_⟩
    rw [hl] at h; simpa using h

lemma getLast?_append_space_cons {a s : List Char} (hs : s ≠ []) :
    (a ++ ' ' :: s).getLast? = s.getLast? := by
  have h1 : a ++ ' ' :: s = (a ++ [' ']) ++ s := by simp
  rw [h1, List.getLast?_append_of_ne_nil _ hs]

lemma spaceJoin_cons (s : List Char) (rest : List (List Char)) :
    spaceJoin (s :: rest) = s ++ (if rest = [] then [] else ' ' :: spaceJoin rest) := by
  cases rest with
  | nil => simp [spaceJoin]
  | cons t ts => simp [spaceJoin]

lemma leadCount_eq_zero_of_headOk {s : List Char}
    (h : s.head?.any goIsSpace = false) : leadCount s = 0 := by
  cases s with
  | nil => rfl
  | cons c s' =>
    have hc : goIsSpace c = false := by simpa using h
    unfold leadCount
    rw [List.takeWhile_cons_of_neg (by simp [hc])]
    rfl

lemma leadCount_append_eq {a : List Char} (b : List Char)
    (h : ∃ x ∈ a, goIsSpace x = false) :
    leadCount (a ++ b) = leadCount a := by
  unfold leadCount
  rw [takeWhile_append_of_exists b h]

lemma drop_drop_of_le {j k : Nat} (h : j ≤ k) (l : List Char) :
    List.drop (k - j) (List.drop j l) = List.drop k l := by
  rw [List.drop_drop]
  congr 1
  omega

lemma chunkLoop_acc (ss : List (List Char)) :
    ∀ buf acc, chunkLoop ss buf acc = acc ++ chunkLoop ss buf [] := by
  induction ss with
  | nil =>
    intro buf acc
    simp only [chunkLoop]
    by_cases h : 0 < buf.length <;> simp [h]
  | cons s rest ih =>
    intro buf acc
    simp only [chunkLoop]
    by_cases h : ChunkSize < buf.length + s.length ∧ 0 < buf.length
    · simp only [h, if_true]
      rw [ih _ (acc ++ [trimChars buf]), ih _ ([] ++ [trimChars buf])]
      simp
    · simp only [h, if_false]
      rw [ih]

lemma chunkLoop_recon (ss : List (List Char)) :
    ∀ (buf : List Char) (k : Nat),
    k ≤ buf.length →
    k ≤ OverlapSize →
    leadCount buf ≤ k →
    buf.getLast?.any goIsSpace = false →
    (∀ s ∈ ss, s ≠ [] ∧ s.head?.any goIsSpace = false ∧ s.getLast?.any goIsSpace = false) →
    ∃ sls : List Nat,
      sls.length = (chunkLoop ss buf []).length ∧
      (∀ n ∈ sls, n ≤ OverlapSize) ∧
      (∀ n, sls.head? = some n → n ≤ k) ∧
      concatAll (List.zipWith List.drop sls (chunkLoop ss buf [])) =
        buf.drop k ++
          (if ss = [] then []
           else (if buf = [] then [] else [' ']) ++ spaceJoin ss) := by
  induction ss with
  | nil =>
    intro buf k hk hk100 hlead hlast _
    by_cases hb : 0 < buf.length
    · have hbne : buf ≠ [] := by
        intro hc; subst hc; simp at hb
      have htr : trimChars buf = buf.drop (leadCount buf) :=
        trimChars_eq_drop_leadCount hlast
      have hres : chunkLoop [] buf [] = [trimChars buf] := by
        simp [chunkLoop, hb]
      refine ⟨[k - leadCount buf], by simp [hres], ?_, ?_, ?_⟩
      · intro n hn
        simp only [List.mem_singleton] at hn
        omega
      · intro n hn
        simp only [List.head?] at hn
        injection hn with hn
        omega
      · rw [hres]
        simp only [List.zipWith_cons_cons, List.zipWith_nil_left, concatAll_cons,
          concatAll_nil, List.append_nil]
        rw [htr, drop_drop_of_le hlead]
        simp
    · have hb0 : buf = [] := by
        rcases buf with _ | _
        · rfl
        · simp at hb
      subst hb0
      have hk0 : k = 0 := by simpa using hk
      subst hk0
      refine ⟨[], by simp [chunkLoop], by simp, by simp, ?_⟩
      simp [chunkLoop, concatAll]
  | cons s rest ih =>
    intro buf k hk hk100 hlead hlast hss
    obtain ⟨hsne, hshead, hslast⟩ := hss s (by simp)
    have hss' : ∀ x ∈ rest, x ≠ [] ∧ x.head?.any goIsSpace = false ∧
        x.getLast?.any goIsSpace = false := fun x hx => hss x (by simp [hx])
    by_cases hcond : ChunkSize < buf.length + s.length ∧ 0 < buf.length
    · -- overflow: emit the buffer, reseed with the overlap suffix
      have hbne : buf ≠ [] := by
        intro hc; subst hc; simp at hcond
      have hsd : overlapSeed buf ≠ [] := overlapSeed_ne_nil hbne hlast
      have hsd0 : 0 < (overlapSeed buf).length := List.length_pos.mpr hsd
      have hseedlast : (overlapSeed buf).getLast? = buf.getLast? :=
        getLast?_drop_of_ne_nil (l := buf) (m := seedStart buf) hsd
      have hres : chunkLoop (s :: rest) buf [] =
          [trimChars buf] ++ chunkLoop rest (overlapSeed buf ++ ' ' :: s) [] := by
        show (if ChunkSize < buf.length + s.length ∧ 0 < buf.length then
            chunkLoop rest
              (if 0 < (overlapSeed buf).length then overlapSeed buf ++ ' ' :: s else s)
              ([] ++ [trimChars buf])
          else chunkLoop rest (if 0 < buf.length then buf ++ ' ' :: s else s) []) = _
        rw [if_pos hcond, if_pos hsd0, List.nil_append, chunkLoop_acc]
      have hwit : ∃ x ∈ overlapSeed buf, goIsSpace x = false :=
        exists_not_space_of_lastOk hsd (by rw [hseedlast]; exact hlast)
      have hlead2 : leadCount (overlapSeed buf ++ ' ' :: s) ≤ (overlapSeed buf).length :=
        leadCount_append_le _ hwit
      have hlast2 : (overlapSeed buf ++ ' ' :: s).getLast?.any goIsSpace = false := by
        rw [getLast?_append_space_cons hsne]; exact hslast
      obtain ⟨sls', hlen', hbound', hhead', hconcat'⟩ :=
        ih (overlapSeed buf ++ ' ' :: s) (overlapSeed buf).length
          (by simp) (length_overlapSeed_le buf) hlead2 hlast2 hss'
      have htr : trimChars buf = buf.drop (leadCount buf) :=
        trimChars_eq_drop_leadCount hlast
      refine ⟨(k - leadCount buf) :: sls', ?_, ?_, ?_, ?_⟩
      · rw [hres]; simp [hlen']
      · intro n hn
        rcases List.mem_cons.mp hn with hn | hn
        · omega
        · exact hbound' n hn
      · intro n hn
        simp only [List.head?] at hn
        injection hn with hn
        omega
      · rw [hres]
        have hb2ne : overlapSeed buf ++ ' ' :: s ≠ [] := by simp
        rw [List.singleton_append, List.zipWith_cons_cons, concatAll_cons]
        rw [hconcat']
        rw [htr, drop_drop_of_le hlead]
        have hdropseed : (overlapSeed buf ++ ' ' :: s).drop (overlapSeed buf).length =
            ' ' :: s := List.drop_left _ _
        rw [hdropseed]
        simp only [hb2ne, if_false, hbne, if_true]
        rw [spaceJoin_cons]
        by_cases hrest : rest = [] <;>
          simp [hrest, List.append_assoc]
    · -- the sentence still fits (or the buffer is empty)
      by_cases hb : 0 < buf.length
      · have hbne : buf ≠ [] := by
          intro hc; subst hc; simp at hb
        have hres : chunkLoop (s :: rest) buf [] =
            chunkLoop rest (buf ++ ' ' :: s) [] := by
          show (if ChunkSize < buf.length + s.length ∧ 0 < buf.length then
              chunkLoop rest
                (if 0 < (overlapSeed buf).length then overlapSeed buf ++ ' ' :: s else s)
                ([] ++ [trimChars buf])
            else chunkLoop rest (if 0 < buf.length then buf ++ ' ' :: s else s) []) = _
          rw [if_neg hcond, if_pos hb]
        have hwit : ∃ x ∈ buf, goIsSpace x = false :=
          exists_not_space_of_lastOk hbne hlast
        have hlead2 : leadCount (buf ++ ' ' :: s) ≤ k := by
          rw [leadCount_append_eq _ hwit]; exact hlead
        have hlast2 : (buf ++ ' ' :: s).getLast?.any goIsSpace = false := by
          rw [getLast?_append_space_cons hsne]; exact hslast
        obtain ⟨sls', hlen', hbound', hhead', hconcat'⟩ :=
          ih (buf ++ ' ' :: s) k
            (by simp; omega) hk100 hlead2 hlast2 hss'
        refine ⟨sls', by rw [hres]; exact hlen', hbound', hhead', ?_⟩
        rw [hres, hconcat']
        have hb2ne : buf ++ ' ' :: s ≠ [] := by simp
        rw [List.drop_append_of_le_length hk]
        simp only [hb2ne, if_false, hbne, if_true]
        rw [spaceJoin_cons]
        by_cases hrest : rest = [] <;>
          simp [hrest, List.append_assoc]
      · have hb0 : buf = [] := by
          rcases buf with _ | _
          · rfl
          · simp at hb
        subst hb0
        have hk0 : k = 0 := by simpa using hk
        subst hk0
        have hres : chunkLoop (s :: rest) [] [] = chunkLoop rest s [] := by
          show (if ChunkSize < List.length [] + s.length ∧ 0 < List.length [] then
              chunkLoop rest
                (if 0 < (overlapSeed []).length then overlapSeed [] ++ ' ' :: s else s)
                ([] ++ [trimChars []])
            else chunkLoop rest (if 0 < List.length [] then [] ++ ' ' :: s else s) []) = _
          rw [if_neg (by simp), if_neg (by simp)]
        have hlead2 : leadCount s ≤ 0 := by
          rw [leadCount_eq_zero_of_headOk hshead]
        obtain ⟨sls', hlen', hbound', hhead', hconcat'⟩ :=
          ih s 0 (by simp) (by simp [OverlapSize]) hlead2 hslast hss'
        refine ⟨sls', by rw [hres]; exact hlen', hbound', hhead', ?_⟩
        rw [hres, hconcat']
        simp only [List.drop_zero, hsne, if_false, List.drop_nil, List.nil_append]
        rw [spaceJoin_cons]
        by_cases hrest : rest = [] <;>
          simp [hrest, hsne]

lemma chunkLoop_length_le (M : Nat) (ss : List (List Char)) :
    ∀ buf acc,
    (∀ s ∈ ss, 0 < s.length ∧ s.length ≤ M) →
    buf.length ≤ ChunkSize + M →
    (∀ c ∈ acc, c.length ≤ ChunkSize + M) →
    ∀ c ∈ chunkLoop ss buf acc, c.length ≤ ChunkSize + M := by
  have hC : ChunkSize = 800 := rfl
  have hO : OverlapSize = 100 := rfl
  induction ss with
  | nil =>
    intro buf acc _ hbuf hacc c hc
    simp only [chunkLoop] at hc
    by_cases hb : 0 < buf.length
    · rw [if_pos hb] at hc
      rcases List.mem_append.mp hc with h | h
      · exact hacc c h
      · simp only [List.mem_singleton] at h
        subst h
        exact le_trans (length_trimChars_le buf) hbuf
    · rw [if_neg hb] at hc
      exact hacc c hc
  | cons s rest ih =>
    intro buf acc hss hbuf hacc c hc
    obtain ⟨hs0, hsM⟩ := hss s (by simp)
    have hss' : ∀ x ∈ rest, 0 < x.length ∧ x.length ≤ M :=
      fun x hx => hss x (List.mem_cons_of_mem _ hx)
    simp only [chunkLoop] at hc
    by_cases hcond : ChunkSize < buf.length + s.length ∧ 0 < buf.length
    · rw [if_pos hcond] at hc
      refine ih _ _ hss' ?_ ?_ c hc
      · by_cases hsd : 0 < (overlapSeed buf).length
        · rw [if_pos hsd]
          have hov := length_overlapSeed_le buf
          simp only [List.length_append, List.length_cons]
          omega
        · rw [if_neg hsd]
          omega
      · intro x hx
        rcases List.mem_append.mp hx with h | h
        · exact hacc x h
        · simp only [List.mem_singleton] at h
          subst h
          exact le_trans (length_trimChars_le buf) hbuf
    · rw [if_neg hcond] at hc
      refine ih _ _ hss' ?_ hacc c hc
      by_cases hb : 0 < buf.length
      · rw [if_pos hb]
        have hfits : ¬ ChunkSize < buf.length + s.length := fun hlt => hcond ⟨hlt, hb⟩
        simp only [List.length_append, List.length_cons]
        omega
      · rw [if_neg hb]
        omega

lemma splitGoAux_ne_nil : ∀ (fuel : Nat) (input cur : List Char),
    splitGoAux fuel input cur ≠ [] := by
  intro fuel
  induction fuel with
  | zero => intro input cur; simp [splitGoAux]
  | succ fuel ih =>
    intro input cur
    cases input with
    | nil => simp [splitGoAux]
    | cons c rest =>
      simp only [splitGoAux]
      by_cases hsep : termChar c ∧ ((rest.dropWhile termChar).head?.any rspaceChar)
      · rw [if_pos hsep]; simp
      · rw [if_neg hsep]; exact ih rest (c :: cur)

lemma splitGoAux_getLast : ∀ (fuel : Nat) (input cur : List Char),
    input.length < fuel →
    cur.reverse ++ input ≠ [] →
    (cur.reverse ++ input).getLast?.any goIsSpace = false →
    ∃ piece, (splitGoAux fuel input cur).getLast? = some piece ∧ piece ≠ [] ∧
      piece.getLast?.any goIsSpace = false := by
  intro fuel
  induction fuel with
  | zero => intro input cur hlen; omega
  | succ fuel ih =>
    intro input cur hlen hne hlast
    cases input with
    | nil =>
      refine ⟨cur.reverse, by simp [splitGoAux], ?_, ?_⟩
      · simpa using hne
      · simpa using hlast
    | cons c rest =>
      simp only [splitGoAux]
      by_cases hsep : termChar c ∧ ((rest.dropWhile termChar).head?.any rspaceChar)
      · rw [if_pos hsep]
        have hrec_ne := splitGoAux_ne_nil fuel ((rest.dropWhile termChar).dropWhile rspaceChar) []
        have hgl : (cur.reverse :: splitGoAux fuel ((rest.dropWhile termChar).dropWhile rspaceChar) []).getLast?
            = (splitGoAux fuel ((rest.dropWhile termChar).dropWhile rspaceChar) []).getLast? := by
          have h2 : cur.reverse :: splitGoAux fuel ((rest.dropWhile termChar).dropWhile rspaceChar) []
              = [cur.reverse] ++ splitGoAux fuel ((rest.dropWhile termChar).dropWhile rspaceChar) [] := rfl
          rw [h2, List.getLast?_append_of_ne_nil _ hrec_ne]
        rw [hgl]
        have hr1ne : rest.dropWhile termChar ≠ [] := by
          intro hcon
          rw [hcon] at hsep
          simp at hsep
        have hrestne : rest ≠ [] := by
          intro hcon
          rw [hcon] at hr1ne
          simp at hr1ne
        have hlast_r : rest.getLast?.any goIsSpace = false := by
          have h2 : (cur.reverse ++ c :: rest).getLast? = rest.getLast? := by
            have h3 : cur.reverse ++ c :: rest = (cur.reverse ++ [c]) ++ rest := by simp
            rw [h3, List.getLast?_append_of_ne_nil _ hrestne]
          rw [← h2]
          exact hlast
        have hgl1 : (rest.dropWhile termChar).getLast? = rest.getLast? :=
          getLast?_dropWhile_of_ne_nil hr1ne
        have hr2ne : (rest.dropWhile termChar).dropWhile rspaceChar ≠ [] := by
          intro hcon
          have hall : ∀ x ∈ rest.dropWhile termChar, rspaceChar x = true :=
            List.dropWhile_eq_nil_iff.mp hcon
          rcases hlr : (rest.dropWhile termChar).getLast? with _ | d
          · rw [List.getLast?_eq_none_iff] at hlr
            exact hr1ne hlr
          · have hdm : d ∈ rest.dropWhile termChar :=
              List.mem_of_mem_getLast? (by rw [hlr]; rfl)
            have hd := rspace_isSpace (hall d hdm)
            rw [hgl1] at hlr
            rw [hlr] at hlast_r
            simp [hd] at hlast_r
        have hgl2 : ((rest.dropWhile termChar).dropWhile rspaceChar).getLast?
            = rest.getLast? := by
          rw [getLast?_dropWhile_of_ne_nil hr2ne, hgl1]
        refine ih ((rest.dropWhile termChar).dropWhile rspaceChar) [] ?_ ?_ ?_
        · have h1 := length_dropWhile_le rspaceChar (rest.dropWhile termChar)
          have h2 := length_dropWhile_le termChar rest
          simp only [List.length_cons] at hlen
          omega
        · simpa using hr2ne
        · simp only [List.reverse_nil, List.nil_append]
          rw [hgl2]
          exact hlast_r
      · rw [if_neg hsep]
        have heq : (c :: cur).reverse ++ rest = cur.reverse ++ c :: rest := by
          simp
        refine ih rest (c :: cur) ?_ ?_ ?_
        · simp only [List.length_cons] at hlen
          omega
        · rw [heq]; exact hne
        · rw [heq]; exact hlast

lemma sentencesOf_ne_nil {t : List Char} (h : trimChars t ≠ []) :
    sentencesOf t ≠ [] := by
  obtain ⟨piece, hpl, hpne, hplast⟩ :=
    splitGoAux_getLast ((trimChars t).length + 1) (trimChars t) []
      (by omega) (by simpa using h) (by simpa using getLast?_trimChars t)
  have hmem : piece ∈ splitGo (trimChars t) :=
    List.mem_of_mem_getLast? (l := splitGo (trimChars t)) (by rw [splitGo, hpl]; rfl)
  have htp : trimChars piece ≠ [] := trimChars_ne_nil hpne hplast
  have hmem2 : trimChars piece ∈ (splitGo (trimChars t)).map trimChars :=
    List.mem_map_of_mem trimChars hmem
  have hmem3 : trimChars piece ∈ sentencesOf t := by
    rw [sentencesOf]
    rw [List.mem_filter]
    refine ⟨hmem2, ?_⟩
    simp only [decide_eq_true_eq]
    intro hcon
    exact htp (List.length_eq_zero.mp hcon)
  exact List.ne_nil_of_mem hmem3

lemma sentencesOf_facts (t : List Char) :
    ∀ s ∈ sentencesOf t, s ≠ [] ∧ s.head?.any goIsSpace = false ∧
      s.getLast?.any goIsSpace = false := by
  intro s hs
  rw [sentencesOf, List.mem_filter] at hs
  obtain ⟨hmem, hlen⟩ := hs
  obtain ⟨x, _, hx⟩ := List.exists_of_mem_map hmem
  subst hx
  refine ⟨?_, head?_trimChars x, getLast?_trimChars x⟩
  simp only [decide_eq_true_eq] at hlen
  intro hcon
  exact hlen (by rw [hcon]; rfl)

lemma chunkLoop_ne_nil (ss : List (List Char)) :
    ∀ buf acc, (∀ s ∈ ss, s ≠ []) →
    (ss ≠ [] ∨ 0 < buf.length ∨ acc ≠ []) →
    chunkLoop ss buf acc ≠ [] := by
  induction ss with
  | nil =>
    intro buf acc _ hor
    simp only [chunkLoop]
    by_cases hb : 0 < buf.length
    · rw [if_pos hb]; simp
    · rw [if_neg hb]
      rcases hor with h | h | h
      · exact absurd rfl h
      · exact absurd h hb
      · exact h
  | cons s rest ih =>
    intro buf acc hss _
    obtain hsne := hss s (by simp)
    have hss' : ∀ x ∈ rest, x ≠ [] := fun x hx => hss x (List.mem_cons_of_mem _ hx)
    simp only [chunkLoop]
    by_cases hcond : ChunkSize < buf.length + s.length ∧ 0 < buf.length
    · rw [if_pos hcond]
      refine ih _ _ hss' (Or.inr (Or.inl ?_))
      by_cases hsd : 0 < (overlapSeed buf).length
      · rw [if_pos hsd]; simp
      · rw [if_neg hsd]
        exact List.length_pos.mpr hsne
    · rw [if_neg hcond]
      refine ih _ _ hss' (Or.inr (Or.inl ?_))
      by_cases hb : 0 < buf.length
      · rw [if_pos hb]; simp
      · rw [if_neg hb]
        exact List.length_pos.mpr hsne

lemma le_foldr_max {n : Nat} : ∀ {L : List Nat}, n ∈ L → n ≤ L.foldr max 0 := by
  intro L
  induction L with
  | nil => intro h; simp at h
  | cons m L ih =>
    intro h
    rcases List.mem_cons.mp h with h | h
    · subst h
      exact le_max_left _ _
    · exact le_trans (ih h) (le_max_right _ _)

lemma sentencesOf_eq_nil_of_trim_nil {t : List Char} (h : trimChars t = []) :
    sentencesOf t = [] := by
  rw [sentencesOf, h]
  rfl

lemma ChunkText_eq_chunkLoop {text : List Char} (h : trimChars text ≠ []) :
    ChunkText text = chunkLoop (sentencesOf text) [] [] := by
  have hlen0 : ¬ (trimChars text).length = 0 := by
    intro hc
    exact h (List.length_eq_zero.mp hc)
  have hfacts := sentencesOf_facts text
  have hloopne : chunkLoop (sentencesOf text) [] [] ≠ [] :=
    chunkLoop_ne_nil (sentencesOf text) [] []
      (fun s hs => (hfacts s hs).1) (Or.inl (sentencesOf_ne_nil h))
  have hcond2 : ¬ ((chunkLoop (sentencesOf text) [] []).length = 0 ∧
      0 < (trimChars text).length) := by
    intro ⟨hc, _⟩
    exact hloopne (List.length_eq_zero.mp hc)
  rw [ChunkText, if_neg hlen0, if_neg hcond2]

/-- C2 (amended): for any cleaned text `t`, joining the chunks returned by
`ChunkText t` with the overlap zones removed reconstructs not `t` itself but
its sentence-normalized form: the trimmed text with every maximal run of
sentence terminators followed by whitespace replaced by a single space (the
separator characters are lost, because the Go code splits on the regexp
`[.!?]+\s+`, which consumes them, and rejoins sentences with single spaces).
Formally, there is a list of overlap lengths, each at most `OverlapSize`
and 0 for the first chunk, such that dropping that prefix from each chunk
and concatenating yields the space-join of the sentence list.  Every chunk
has length at most `ChunkSize` (800) plus the length of one sentence. -/
theorem chunkText_join_amended (text : List Char) :
    (∀ c ∈ ChunkText text, c.length ≤ ChunkSize + maxSentLen text) ∧
    ∃ sls : List Nat,
      sls.length = (ChunkText text).length ∧
      (∀ n ∈ sls, n ≤ OverlapSize) ∧
      (∀ n, sls.head? = some n → n = 0) ∧
      concatAll (List.zipWith List.drop sls (ChunkText text)) =
        spaceJoin (sentencesOf text) := by
  by_cases ht : trimChars text = []
  · have hct : ChunkText text = [] := by
      rw [ChunkText, if_pos (by rw [ht]; rfl)]
    have hso : sentencesOf text = [] := sentencesOf_eq_nil_of_trim_nil ht
    refine ⟨by rw [hct]; simp, [], by rw [hct]; rfl, by simp, by simp, ?_⟩
    rw [hct, hso]
    rfl
  · have hct := ChunkText_eq_chunkLoop ht
    have hfacts := sentencesOf_facts text
    have hsne := sentencesOf_ne_nil ht
    constructor
    · rw [hct]
      refine chunkLoop_length_le (maxSentLen text) (sentencesOf text) [] [] ?_ (by simp) (by simp)
      intro s hs
      refine ⟨List.length_pos.mpr (hfacts s hs).1, ?_⟩
      exact le_foldr_max (List.mem_map_of_mem List.length hs)
    · obtain ⟨sls, hlen, hbound, hhead, hconcat⟩ :=
        chunkLoop_recon (sentencesOf text) [] 0 (by simp) (by simp [OverlapSize])
          (by simp [leadCount]) (by simp) hfacts
      refine ⟨sls, by rw [hct]; exact hlen, hbound, ?_, ?_⟩
      · intro n hn
        have := hhead n hn
        omega
      · rw [hct, hconcat]
        simp [hsne]

/-- C2 (counterexample): on the text "Hi. Bye" the chunker returns the single
chunk "Hi Bye": the terminator-plus-space separator ". " was consumed by the
sentence regexp and replaced by one space, so no reassembly of the chunks
(there is only one, hence no overlap zone at all) can reconstruct the
original text — a character is missing. -/
theorem chunkText_join_cex :
    ChunkText ("Hi. Bye".toList) = ["Hi Bye".toList] ∧
    concatAll (ChunkText ("Hi. Bye".toList)) ≠ "Hi. Bye".toList := by
  constructor
  · decide
  · decide

/-!
URL normalization: embedding of `NormalizeURL` from the content
processor together with the behaviour of Go's `net/url` parse and
serialize on the fragment of URL syntax the crawler handles.  The
parser refuses URLs containing characters that Go would percent-encode
or -decode, so on its domain Go's `url.Parse`/`URL.String` round-trip
acts exactly as the structural parse below.
-/

/-- ASCII letter. -/
def isAsciiAlpha (c : Char) : Bool :=
  decide ((97 ≤ c.toNat ∧ c.toNat ≤ 122) ∨ (65 ≤ c.toNat ∧ c.toNat ≤ 90))

/-- ASCII digit. -/
def isAsciiDigit (c : Char) : Bool :=
  decide (48 ≤ c.toNat ∧ c.toNat ≤ 57)

/-- Characters allowed after the first in a URL scheme: alphanumerics and
`+` (43), `-` (45), `.` (46). -/
def schemeChar (c : Char) : Bool :=
  isAsciiAlpha c || isAsciiDigit c ||
    decide (c.toNat = 43 ∨ c.toNat = 45 ∨ c.toNat = 46)

/-- Characters allowed in a registered-name host: alphanumerics and
`-` (45), `.` (46). -/
def hostChar (c : Char) : Bool :=
  isAsciiAlpha c || isAsciiDigit c || decide (c.toNat = 45 ∨ c.toNat = 46)

/-- Unreserved path characters plus the path separator: alphanumerics and
`-` (45), `.` (46), `/` (47), `_` (95), `~` (126).  Go neither escapes
nor unescapes these in a path. -/
def pathChar (c : Char) : Bool :=
  isAsciiAlpha c || isAsciiDigit c ||
    decide (c.toNat = 45 ∨ c.toNat = 46 ∨ c.toNat = 47 ∨ c.toNat = 95 ∨ c.toNat = 126)

/-- Unreserved characters of query keys and values: alphanumerics and
`-` (45), `.` (46), `_` (95), `~` (126) — exactly what Go's
`url.QueryEscape` leaves unchanged. -/
def queryChar (c : Char) : Bool :=
  isAsciiAlpha c || isAsciiDigit c ||
    decide (c.toNat = 45 ∨ c.toNat = 46 ∨ c.toNat = 95 ∨ c.toNat = 126)

/-- Fragment characters accepted by the parser (the fragment is dropped
by the normalizer anyway). -/
def fragChar (c : Char) : Bool :=
  isAsciiAlpha c || isAsciiDigit c ||
    decide (c.toNat = 45 ∨ c.toNat = 46 ∨ c.toNat = 47 ∨ c.toNat = 95 ∨ c.toNat = 126)

/-- Component view of a parsed absolute URL, mirroring the fields of
Go's `url.URL` that `NormalizeURL` touches. -/
structure GoURL where
  scheme : List Char
  host : List Char
  path : List Char
  query : List Char
  fragment : List Char
deriving DecidableEq, Repr

/-- Split a character list on a separator character.  Mirrors the
segment iteration of Go's `url.ParseQuery`. -/
def splitOnChar (sep : Char) : List Char → List (List Char)
  | [] => [[]]
  | c :: rest =>
    if c = sep then [] :: splitOnChar sep rest
    else
      match splitOnChar sep rest with
      | [] => [[c]]
      | h :: t => (c :: h) :: t

/-- A scheme is nonempty, starts with a letter, and uses scheme characters. -/
def validScheme (l : List Char) : Bool :=
  (match l with
   | [] => false
   | c :: _ => isAsciiAlpha c) && l.all schemeChar

/-- A host is nonempty and uses registered-name characters. -/
def validHost (l : List Char) : Bool :=
  !l.isEmpty && l.all hostChar

/-- A path is empty or starts with `/` and uses unreserved characters. -/
def validPath (l : List Char) : Bool :=
  l.all pathChar && (l.isEmpty || decide (l.head? = some '/'))

/-- A raw query uses unreserved characters plus `=` and `&`, with at most
one `=` per `&`-segment (so Go's encode/decode act structurally). -/
def validQuery (l : List Char) : Bool :=
  l.all (fun c => queryChar c || c = '=' || c = '&') &&
  (splitOnChar '&' l).all (fun seg => (seg.filter (fun c => c = '=')).length ≤ 1)

/-- A fragment uses unreserved characters. -/
def validFrag (l : List Char) : Bool :=
  l.all fragChar

/-- Host terminators inside the authority-relative part. -/
def hostEnd (c : Char) : Bool := c = '/' || c = '?' || c = '#'

/-- Path terminators. -/
def pathEnd (c : Char) : Bool := c = '?' || c = '#'

/-- Final validity gate of the parser: all components well-formed. -/
def checkURL (sch host path q f : List Char) : Option GoURL :=
  if validScheme sch && validHost host && validPath path && validQuery q && validFrag f
  then some ⟨sch, host, path, q, f⟩ else none

/-- Split the part after the path into query and fragment. -/
def parseQF (sch host path rest : List Char) : Option GoURL :=
  match rest with
  | [] => checkURL sch host path [] []
  | '?' :: r =>
    match r.dropWhile (fun c => !(c = '#')) with
    | [] => checkURL sch host path (r.takeWhile (fun c => !(c = '#'))) []
    | '#' :: f => checkURL sch host path (r.takeWhile (fun c => !(c = '#'))) f
    | _ => none
  | '#' :: f => checkURL sch host path [] f
  | _ => none

/-- Split the part after the host into path and query/fragment. -/
def parsePQF (sch host rest : List Char) : Option GoURL :=
  parseQF sch host (rest.takeWhile (fun c => !pathEnd c)) (rest.dropWhile (fun c => !pathEnd c))

/-- Structural parse of an absolute URL `scheme://host/path?query#fragment`,
the behaviour of Go `url.Parse` on the fragment of URL syntax described
above. -/
def parseGoURL (s : List Char) : Option GoURL :=
  match s.dropWhile (fun c => !(c = ':')) with
  | ':' :: '/' :: '/' :: r3 =>
    parsePQF (s.takeWhile (fun c => !(c = ':')))
      (r3.takeWhile (fun c => !hostEnd c))
      (r3.dropWhile (fun c => !hostEnd c))
  | _ => none

/-- Serialization, the behaviour of Go `URL.String` on this fragment. -/
def urlString (u : GoURL) : List Char :=
  u.scheme ++ ':' :: '/' :: '/' :: u.host ++ u.path ++
  (if u.query.isEmpty then [] else '?' :: u.query) ++
  (if u.fragment.isEmpty then [] else '#' :: u.fragment)

/-- ASCII lowercasing of one character, as in Go `strings.ToLower`. -/
def goToLower (c : Char) : Char :=
  if 65 ≤ c.toNat ∧ c.toNat ≤ 90 then Char.ofNat (c.toNat + 32) else c

/-- The tracking parameters removed by `NormalizeURL`. -/
def trackingParams : List (List Char) :=
  [("utm_source" : String).toList, ("utm_medium" : String).toList,
   ("utm_campaign" : String).toList, ("utm_term" : String).toList,
   ("utm_content" : String).toList, ("fbclid" : String).toList,
   ("gclid" : String).toList, ("mc_cid" : String).toList,
   ("mc_eid" : String).toList, ("ref" : String).toList,
   ("source" : String).toList, ("campaign" : String).toList]

/-- Go `strings.Cut(seg, "=")`: split at the first `=`, or return the
segment unchanged with an empty value. -/
def cutEq (seg : List Char) : List Char × List Char :=
  match seg.dropWhile (fun c => !(c = '=')) with
  | '=' :: v => (seg.takeWhile (fun c => !(c = '=')), v)
  | _ => (seg, [])

/-- Go `url.ParseQuery` on the modelled domain: split on `&`, skip empty
segments, cut each at the first `=`. -/
def parseQuery (q : List Char) : List (List Char × List Char) :=
  (splitOnChar '&' q).filterMap (fun seg => if seg.isEmpty then none else some (cutEq seg))

/-- The effect of the `query.Del` calls of `NormalizeURL`: remove every
pair whose key is a tracking parameter. -/
def delTrackers (ps : List (List Char × List Char)) : List (List Char × List Char) :=
  ps.filter (fun p => !(trackingParams.contains p.1))

/-- Byte-wise (ASCII) lexicographic comparison of keys, as Go sorts
strings. -/
def lexLe : List Char → List Char → Bool
  | [], _ => true
  | _ :: _, [] => false
  | x :: xs, y :: ys =>
    if x = y then lexLe xs ys
    else decide (x.toNat < y.toNat)

/-- Insertion into a `lexLe`-sorted list. -/
def insertSorted (x : List Char) : List (List Char) → List (List Char)
  | [] => [x]
  | y :: r => if lexLe x y then x :: y :: r else y :: insertSorted x r

/-- Insertion sort by `lexLe`. -/
def sortKeys : List (List Char) → List (List Char)
  | [] => []
  | x :: r => insertSorted x (sortKeys r)

/-- Remove adjacent duplicates of a sorted list: the distinct keys, in
order, that Go's `Values.Encode` iterates over. -/
def dedupAdj : List (List Char) → List (List Char)
  | [] => []
  | [x] => [x]
  | x :: y :: r => if x = y then dedupAdj (y :: r) else x :: dedupAdj (y :: r)

/-- Join query segments with `&`. -/
def joinAmp : List (List Char) → List Char
  | [] => []
  | [s] => s
  | s :: r => s ++ '&' :: joinAmp r

/-- Go `url.Values.Encode` on the modelled domain: keys sorted, each
key's values in their original order, every pair written `k=v`. -/
def encodeQuery (ps : List (List Char × List Char)) : List Char :=
  joinAmp ((dedupAdj (sortKeys (ps.map Prod.fst))).flatMap
    (fun k => (ps.filter (fun p => p.1 = k)).map (fun p => k ++ '=' :: p.2)))

/-- Query rewrite of `NormalizeURL`: parse, delete trackers, re-encode. -/
def normQuery (q : List Char) : List Char :=
  encodeQuery (delTrackers (parseQuery q))

/-- The trailing-slash trim of `NormalizeURL`: Go
`strings.TrimSuffix(path, "/")` guarded by `path != "/"`, which removes
exactly one trailing slash. -/
def trimOneSlash (p : List Char) : List Char :=
  if p ≠ ['/'] ∧ p.getLast? = some '/' then p.dropLast else p

/-- The path rewrite of `NormalizeURL`: trim one trailing slash, then
replace an empty path by `/`. -/
def normPath (p : List Char) : List Char :=
  if trimOneSlash p = [] then ['/'] else trimOneSlash p

/-- The component transformation of `NormalizeURL`: lowercase scheme and
host, drop the fragment, strip trackers and re-encode the query (only
when a raw query is present), and normalize the path. -/
def normalizeTransform (u : GoURL) : GoURL where
  scheme := u.scheme.map goToLower
  host := u.host.map goToLower
  path := normPath u.path
  query := if u.query.isEmpty then [] else normQuery u.query
  fragment := []

/-- Embedding of `NormalizeURL` from the content processor:
parse, transform, serialize. -/
def NormalizeURL (s : List Char) : Option (List Char) :=
  (parseGoURL s).map (fun u => urlString (normalizeTransform u))

/-!
Relational store: embedding of `PageRepository` (page.repository.go) and
`WebsiteRepository` (website.repository.go).  A table is a list of rows;
SQL `ON CONFLICT (website_id, normalized_url) DO UPDATE` is modelled by
looking the row up under that unique key (migration 004 adds the unique
constraint `unique_website_normalized_url`).
-/

/-- A row of the `pages` table. -/
structure Page where
  id : Nat
  websiteId : Nat
  url : List Char
  normalizedUrl : List Char
  minioObjectKey : Option (List Char)
  contentHash : Option (List Char)
  status : List Char
  errorMessage : Option (List Char)
  crawledAt : Option Nat
  createdAt : Nat
  updatedAt : Nat
deriving DecidableEq, Repr

/-- The `pages` table. -/
def PagesTable : Type := List Page

/-- Lookup under the unique key `(website_id, normalized_url)`. -/
def findPage (db : List Page) (websiteId : Nat) (normalizedUrl : List Char) : Option Page :=
  db.find? (fun r => r.websiteId = websiteId ∧ r.normalizedUrl = normalizedUrl)

/-- Embedding of `PageRepository.Upsert`: insert `(website_id, url, url,
'pending')` — note the SQL binds `normalized_url` to the same `$2` as
`url`, no normalization happens — and on conflict with
`(website_id, normalized_url)` update only `url` and `updated_at`,
returning the resulting row.  `now` stands for `NOW()` and `freshId` for
the `SERIAL` id of a fresh insert. -/
def Upsert (db : List Page) (websiteId : Nat) (url : List Char)
    (now freshId : Nat) : Page × List Page :=
  match findPage db websiteId url with
  | some r =>
    ({ r with url := url, updatedAt := now },
     db.map (fun r2 => if r2.id = r.id then { r2 with url := url, updatedAt := now } else r2))
  | none =>
    let row : Page :=
      { id := freshId, websiteId := websiteId, url := url, normalizedUrl := url,
        minioObjectKey := none, contentHash := none, status := ("pending" : String).toList,
        errorMessage := none, crawledAt := none, createdAt := now, updatedAt := now }
    (row, db ++ [row])

/-- A row of the `websites` table, with the crawl-status columns of
migration 003. -/
structure Website where
  id : Nat
  url : List Char
  userId : Option (List Char)
  isMonitored : Bool
  crawlStatus : List Char
  crawlStartedAt : Option Nat
  crawlCompletedAt : Option Nat
  totalPagesCrawled : Nat
  totalPagesFailed : Nat
  lastError : Option (List Char)
  createdAt : Nat
  updatedAt : Nat
deriving DecidableEq, Repr

/-- Embedding of `WebsiteRepository.StartCrawl`: set
`crawl_status = 'crawling'`, `crawl_started_at = now`,
`crawl_completed_at = NULL`, `updated_at = NOW()` — and nothing else. -/
def StartCrawl (w : Website) (now : Nat) : Website :=
  { w with crawlStatus := ("crawling" : String).toList,
           crawlStartedAt := some now,
           crawlCompletedAt := none,
           updatedAt := now }

/-- Embedding of `WebsiteRepository.CompleteCrawl`: set
`crawl_status = 'completed'`, `crawl_completed_at`, and overwrite both
counters with the totals supplied by the crawler. -/
def CompleteCrawl (w : Website) (totalPages failedPages now : Nat) : Website :=
  { w with crawlStatus := ("completed" : String).toList,
           crawlCompletedAt := some now,
           totalPagesCrawled := totalPages,
           totalPagesFailed := failedPages,
           updatedAt := now }

/-- Embedding of `WebsiteRepository.FailCrawl`. -/
def FailCrawl (w : Website) (errorMsg : List Char) (now : Nat) : Website :=
  { w with crawlStatus := ("failed" : String).toList,
           lastError := some errorMsg,
           updatedAt := now }

/-- Embedding of `WebsiteRepository.IncrementPageCount`. -/
def IncrementPageCount (w : Website) (success : Bool) (now : Nat) : Website :=
  if success then
    { w with totalPagesCrawled := w.totalPagesCrawled + 1, updatedAt := now }
  else
    { w with totalPagesFailed := w.totalPagesFailed + 1, updatedAt := now }

/-- C10: upserting a Page for an existing `(website_id, normalized_url)`
pair returns the existing row — same id — with only `url` and
`updated_at` modified; `status`, the object key, `content_hash`,
`error_message` and `crawled_at` are unchanged, and every other row of
the table is untouched, so a retried crawl does not clobber a previously
recorded success or error. -/
theorem upsert_existing_frame (db : List Page) (websiteId : Nat) (url : List Char)
    (now freshId : Nat) (r : Page)
    (h : findPage db websiteId url = some r) :
    (Upsert db websiteId url now freshId).1.id = r.id ∧
    (Upsert db websiteId url now freshId).1.websiteId = r.websiteId ∧
    (Upsert db websiteId url now freshId).1.normalizedUrl = r.normalizedUrl ∧
    (Upsert db websiteId url now freshId).1.status = r.status ∧
    (Upsert db websiteId url now freshId).1.minioObjectKey = r.minioObjectKey ∧
    (Upsert db websiteId url now freshId).1.contentHash = r.contentHash ∧
    (Upsert db websiteId url now freshId).1.errorMessage = r.errorMessage ∧
    (Upsert db websiteId url now freshId).1.crawledAt = r.crawledAt ∧
    (Upsert db websiteId url now freshId).1.createdAt = r.createdAt ∧
    (Upsert db websiteId url now freshId).1.url = url ∧
    (Upsert db websiteId url now freshId).1.updatedAt = now ∧
    (∀ r2 ∈ db, r2.id ≠ r.id → r2 ∈ (Upsert db websiteId url now freshId).2) := by
  have hres : Upsert db websiteId url now freshId =
      ({ r with url := url, updatedAt := now },
       db.map (fun r2 => if r2.id = r.id then { r2 with url := url, updatedAt := now }
         else r2)) := by
    unfold Upsert
    rw [h]
  rw [hres]
  refine ⟨rfl, rfl, rfl, rfl, rfl, rfl, rfl, rfl, rfl, rfl, rfl, ?_⟩
  intro r2 hr2 hne
  simp only [List.mem_map]
  exact ⟨r2, hr2, by rw [if_neg hne]⟩

/-- A concrete successful page row for exercising the upsert frame. -/
def donePage : Page where
  id := 7
  websiteId := 1
  url := ("https://a.test/x" : String).toList
  normalizedUrl := ("https://a.test/x" : String).toList
  minioObjectKey := some ("websites/1/a.test/x_deadbeef.txt" : String).toList
  contentHash := some ("abcd" : String).toList
  status := ("success" : String).toList
  errorMessage := none
  crawledAt := some 5
  createdAt := 1
  updatedAt := 5

/-- C10 witness: the frame theorem applied to a one-row table holding a
`success` row; the upsert keeps id 7, status `success`, the object key,
hash and crawl time. -/
theorem upsert_existing_frame_witness :
    findPage [donePage] 1 (("https://a.test/x" : String).toList) = some donePage ∧
    (Upsert [donePage] 1 (("https://a.test/x" : String).toList) 9 8).1.id = 7 ∧
    (Upsert [donePage] 1 (("https://a.test/x" : String).toList) 9 8).1.status =
      ("success" : String).toList := by
  have h : findPage [donePage] 1 (("https://a.test/x" : String).toList) = some donePage := by
    decide
  have frame := upsert_existing_frame [donePage] 1 (("https://a.test/x" : String).toList)
    9 8 donePage h
  exact ⟨h, frame.1, frame.2.2.2.1⟩

/-- A website whose previous crawl left nonzero counters. -/
def staleSite : Website where
  id := 1
  url := ("https://a.test" : String).toList
  userId := none
  isMonitored := true
  crawlStatus := ("completed" : String).toList
  crawlStartedAt := some 1
  crawlCompletedAt := some 2
  totalPagesCrawled := 5
  totalPagesFailed := 2
  lastError := none
  createdAt := 0
  updatedAt := 2

/-- C5 (counterexample): `StartCrawl` moves `staleSite` into the
`crawling` phase with `total_pages_crawled` still 5 and
`total_pages_failed` still 2 — the transition into `crawling` does not
reset the counters to 0. -/
theorem startCrawl_reset_cex :
    (StartCrawl staleSite 3).crawlStatus = ("crawling" : String).toList ∧
    (StartCrawl staleSite 3).totalPagesCrawled = 5 ∧
    (StartCrawl staleSite 3).totalPagesFailed = 2 ∧
    ¬ (StartCrawl staleSite 3).totalPagesCrawled = 0 := by
  refine ⟨rfl, rfl, rfl, by decide⟩

/-- C5 (amended): the `crawling` transition (`StartCrawl`) sets only the
status, `crawl_started_at`, `crawl_completed_at` and `updated_at`; both
page counters, the last error and the identity columns are preserved.
The counters are instead overwritten later by `CompleteCrawl` with the
run's totals. -/
theorem startCrawl_frame_amended (w : Website) (now : Nat) :
    (StartCrawl w now).crawlStatus = ("crawling" : String).toList ∧
    (StartCrawl w now).crawlStartedAt = some now ∧
    (StartCrawl w now).crawlCompletedAt = none ∧
    (StartCrawl w now).totalPagesCrawled = w.totalPagesCrawled ∧
    (StartCrawl w now).totalPagesFailed = w.totalPagesFailed ∧
    (StartCrawl w now).lastError = w.lastError ∧
    (StartCrawl w now).id = w.id ∧
    (StartCrawl w now).url = w.url ∧
    (CompleteCrawl w 0 0 now).totalPagesCrawled = 0 :=
  ⟨rfl, rfl, rfl, rfl, rfl, rfl, rfl, rfl, rfl⟩

/-!
Crawler engine control flow, from `Crawler.Crawl` in
`internal/crawler/crawler.go`.  The per-page handler and the pre-loop
setup are embedded as trace-producing functions whose events are the
calls the Go code makes, in source order; Bool parameters select the
error branches of the corresponding calls.
-/

/-- Side-effecting calls of the OnHTML("body") handler. -/
inductive CrawlEvent where
  | pageUpsert
  | savePageContent
  | updateError
  | updateSuccess
  | incrementOk
  | incrementFailed
  | spawnVectorizeGoroutine
  | enqueueEmbedPage
deriving DecidableEq, Repr

/-- Embedding of the OnHTML("body") handler of `Crawler.Crawl`: upsert the
Page row; on upsert failure count a failure and stop; save the body to
MinIO; on failure mark the row `error`, count a failure and stop; mark
the row `success`; on failure count a failure and stop; count a success
and spawn vectorization in a fire-and-forget goroutine
(`go func(){ ... vectorizerSvc.ProcessPageContent ... }()`).  No
`EmbedPage` task is ever enqueued. -/
def crawlPageHandler (upsertErr saveErr updateErr : Bool) : List CrawlEvent :=
  if upsertErr then [.pageUpsert, .incrementFailed]
  else if saveErr then [.pageUpsert, .savePageContent, .updateError, .incrementFailed]
  else if updateErr then [.pageUpsert, .savePageContent, .updateSuccess, .incrementFailed]
  else [.pageUpsert, .savePageContent, .updateSuccess, .incrementOk,
    .spawnVectorizeGoroutine]

/-- C4 (counterexample): on the success path the handler's trace ends in a
goroutine spawn whose body writes to the vector index, and contains no
`EmbedPage` enqueue — refuting both the claimed `EmbedPage` enqueue step
and the claimed absence of fire-and-forget work affecting persistent
state. -/
theorem crawl_order_cex :
    crawlPageHandler false false false =
      [.pageUpsert, .savePageContent, .updateSuccess, .incrementOk,
        .spawnVectorizeGoroutine] ∧
    CrawlEvent.enqueueEmbedPage ∉ crawlPageHandler false false false ∧
    CrawlEvent.spawnVectorizeGoroutine ∈ crawlPageHandler false false false := by
  refine ⟨rfl, by decide, by decide⟩

/-- C4 (amended): for each accepted page the side effects occur in the
strict order Page upsert, body put, Page success transition, success
counter increment — and then vectorization is spawned as a
fire-and-forget goroutine calling `ProcessPageContent` directly; no
`EmbedPage` task is enqueued on any branch of the handler. -/
theorem crawl_order_amended :
    crawlPageHandler false false false =
      [.pageUpsert, .savePageContent, .updateSuccess, .incrementOk,
        .spawnVectorizeGoroutine] ∧
    (∀ e1 e2 e3, CrawlEvent.enqueueEmbedPage ∉ crawlPageHandler e1 e2 e3) := by
  refine ⟨rfl, ?_⟩
  intro e1 e2 e3
  cases e1 <;> cases e2 <;> cases e3 <;> decide

/-- Pre-loop steps of `Crawler.Crawl`. -/
inductive SetupEvent where
  | ensureBucket
  | failCrawlStep
  | startCrawlStep
  | parseStartURL
  | visitLoop
  | completeCrawlStep
  | abortAlreadyRunning
deriving DecidableEq, Repr

/-- Embedding of the control flow of `Crawler.Crawl` around the fetch
loop: ensure the bucket (failure → `FailCrawl`, return), call
`StartCrawl` unconditionally, parse the start URL (failure →
`FailCrawl`, return), run the collector, then `CompleteCrawl`.  The
function receives the website row and the task retry count only to show
they are never consulted: the Go code reads neither `crawl_status` nor
any retry counter and has no already-running abort. -/
def crawlSetup (bucketOk parseOk : Bool) (w : Website) (retryCount : Nat) :
    List SetupEvent :=
  if !bucketOk then [.ensureBucket, .failCrawlStep]
  else if !parseOk then [.ensureBucket, .startCrawlStep, .parseStartURL, .failCrawlStep]
  else [.ensureBucket, .startCrawlStep, .parseStartURL, .visitLoop, .completeCrawlStep]

/-- Embedding of the recrawl API handler `WebsiteController.RecrawlWebsite`:
404 when the website is missing, 409 Conflict without enqueueing when it
is already `crawling`, otherwise enqueue the recrawl task and 200.  The
Bool is true iff a task was enqueued. -/
def RecrawlWebsite (website : Option Website) : Nat × Bool :=
  match website with
  | none => (404, false)
  | some w =>
    if w.crawlStatus = ("crawling" : String).toList then (409, false) else (200, true)

/-- A website currently in the `crawling` phase. -/
def crawlingSite : Website :=
  { staleSite with crawlStatus := ("crawling" : String).toList }

/-- C6 (counterexample): a `CrawlSite` run against a website already in
`crawling` state with retry counter 0 still performs the `StartCrawl`
transition, fetches pages (reaches the visit loop) and never aborts with
`AlreadyRunning` — no such guard exists in the engine. -/
theorem already_running_guard_cex :
    SetupEvent.startCrawlStep ∈ crawlSetup true true crawlingSite 0 ∧
    SetupEvent.visitLoop ∈ crawlSetup true true crawlingSite 0 ∧
    SetupEvent.abortAlreadyRunning ∉ crawlSetup true true crawlingSite 0 := by
  refine ⟨by decide, by decide, by decide⟩

/-- C6 (amended): the crawler engine performs no already-running check at
all — for every website state and retry count it transitions the Website
via `StartCrawl` (whenever the bucket step succeeds) and never aborts
with `AlreadyRunning`; the rejection of overlapping recrawls lives only
in the API layer, whose recrawl handler answers 409 Conflict without
enqueueing when the website is already `crawling`. -/
theorem crawl_guard_amended :
    (∀ b p (w : Website) n, SetupEvent.abortAlreadyRunning ∉ crawlSetup b p w n) ∧
    (∀ p (w : Website) n, SetupEvent.startCrawlStep ∈ crawlSetup true p w n) ∧
    (∀ w : Website, RecrawlWebsite (some w) =
      if w.crawlStatus = ("crawling" : String).toList then (409, false)
      else (200, true)) := by
  refine ⟨?_, ?_, ?_⟩
  · intro b p w n
    cases b <;> cases p <;> simp [crawlSetup]
  · intro p w n
    cases p <;> simp [crawlSetup]
  · intro w
    rfl

/-- C8 (counterexample): `NormalizeURL` is not idempotent.  On
`https://example.com///` the trailing-slash rule
(`strings.TrimSuffix(path, "/")`) removes exactly one slash, yielding
`https://example.com//`; normalizing that output removes another,
yielding `https://example.com/`, a different string. -/
theorem normalizeURL_idempotent_cex :
    NormalizeURL (("https://example.com///" : String).toList) =
      some (("https://example.com//" : String).toList) ∧
    NormalizeURL (("https://example.com//" : String).toList) =
      some (("https://example.com/" : String).toList) ∧
    (("https://example.com//" : String).toList) ≠
      (("https://example.com/" : String).toList) := by
  refine ⟨by decide, by decide, by decide⟩

/-- The upsert calls the crawler's body handler makes for a list of
fetched link URLs, with fresh ids assigned sequentially: each link is
passed verbatim to `PageRepository.Upsert`. -/
def crawlUpsertLinks : List (List Char) → Nat → List Page → Nat → List Page
  | [], _, db, _ => db
  | link :: rest, w, db, fresh =>
    crawlUpsertLinks rest w (Upsert db w link 0 fresh).2 (fresh + 1)

/-- C1: the crawler persists the raw request URL as `normalized_url` —
`Upsert` binds `normalized_url` to the same parameter as `url`, and
`Crawl` never calls `NormalizeURL` (the function exists in the content
processor but has no caller).  Processing the two S3 links
`https://example.test/doc?utm_source=x` and `https://example.test/doc`
therefore creates two Page rows whose `normalized_url` columns are the
two raw URLs, even though the repository's own `NormalizeURL` maps both
links to the same canonical `https://example.test/doc` — the claimed
single canonical row does not exist. -/
theorem crawler_stores_raw_url :
    (crawlUpsertLinks
      [("https://example.test/doc?utm_source=x" : String).toList,
       ("https://example.test/doc" : String).toList] 1 [] 1).length = 2 ∧
    (crawlUpsertLinks
      [("https://example.test/doc?utm_source=x" : String).toList,
       ("https://example.test/doc" : String).toList] 1 [] 1).map Page.normalizedUrl =
      [("https://example.test/doc?utm_source=x" : String).toList,
       ("https://example.test/doc" : String).toList] ∧
    NormalizeURL (("https://example.test/doc?utm_source=x" : String).toList) =
      some (("https://example.test/doc" : String).toList) ∧
    NormalizeURL (("https://example.test/doc" : String).toList) =
      some (("https://example.test/doc" : String).toList) ∧
    (("https://example.test/doc?utm_source=x" : String).toList) ≠
      (("https://example.test/doc" : String).toList) := by
  refine ⟨by decide, by decide, by decide, by decide, by decide⟩

/-!
Robots policy cache: embedding of `RobotsEnforcer` from the content
processor.  The robotstxt library is external; its parsed data is kept
abstract (`RData.parsed body`), with the zero-value record of the 404
branch modelled as allow-all, which is how `CanFetch` treats it
(`FindGroup` on the empty record yields no rules).  The HTTP fetch is an
explicit outcome parameter. -/

/-- Cached robots data: the 404 branch stores the empty record
(allow-all), the 200 branch the record parsed from the body. -/
inductive RData where
  | emptyAllowAll
  | parsed (body : List Char)
deriving DecidableEq, Repr

/-- A cache entry with its 24-hour expiry instant. -/
structure RobotsCacheEntry where
  rdata : RData
  expiresAt : Nat
deriving DecidableEq, Repr

/-- Outcome of fetching `/robots.txt`: transport failure (including too
many redirects and timeouts) or an HTTP status with body. -/
inductive FetchOutcome where
  | netErr
  | status (code : Nat) (body : List Char)
deriving DecidableEq, Repr

/-- The robots cache TTL: 24 hours, in seconds. -/
def robotsTTL : Nat := 86400

/-- The cache key of `getRobotsData`: `parsedURL.Scheme + "://" + parsedURL.Host`. -/
def robotsKey (u : GoURL) : List Char :=
  u.scheme ++ ("://" : String).toList ++ u.host

/-- Association-list lookup of the robots cache map. -/
def lookupR (cache : List (List Char × RobotsCacheEntry)) (origin : List Char) :
    Option RobotsCacheEntry :=
  (cache.find? (fun p => p.1 = origin)).map Prod.snd

/-- Map write of the robots cache. -/
def insertR (cache : List (List Char × RobotsCacheEntry)) (origin : List Char)
    (e : RobotsCacheEntry) : List (List Char × RobotsCacheEntry) :=
  cache.filter (fun p => ¬ p.1 = origin) ++ [(origin, e)]

/-- The fetch-and-cache tail of `getRobotsData`: 200 parses and caches for
24 h; 404 caches the empty allow-all record for 24 h; a transport error
or any other status code returns an error and caches nothing. -/
def getRobotsFetch (cache : List (List Char × RobotsCacheEntry)) (origin : List Char)
    (now : Nat) (fetch : FetchOutcome) :
    Option RData × List (List Char × RobotsCacheEntry) :=
  match fetch with
  | .netErr => (none, cache)
  | .status code body =>
    if code = 200 then
      (some (.parsed body), insertR cache origin ⟨.parsed body, now + robotsTTL⟩)
    else if code = 404 then
      (some .emptyAllowAll, insertR cache origin ⟨.emptyAllowAll, now + robotsTTL⟩)
    else (none, cache)

/-- Embedding of `RobotsEnforcer.getRobotsData`: serve a fresh cache entry,
otherwise fetch and apply the status policy above. -/
def getRobotsData (cache : List (List Char × RobotsCacheEntry)) (origin : List Char)
    (now : Nat) (fetch : FetchOutcome) :
    Option RData × List (List Char × RobotsCacheEntry) :=
  match lookupR cache origin with
  | some e =>
    if now < e.expiresAt then (some e.rdata, cache)
    else getRobotsFetch cache origin now fetch
  | none => getRobotsFetch cache origin now fetch

/-- Embedding of `RobotsEnforcer.CanFetch`: a failed robots lookup allows
by default (fail-open); an empty record allows everything; a parsed
record is consulted through `allowOracle`, the abstraction of the
robotstxt library's `FindGroup(userAgent).Test(parsedURL.Path)`. -/
def CanFetch (cache : List (List Char × RobotsCacheEntry)) (u : GoURL) (now : Nat)
    (fetch : FetchOutcome) (allowOracle : List Char → List Char → Bool) :
    Bool × List (List Char × RobotsCacheEntry) :=
  match getRobotsData cache (robotsKey u) now fetch with
  | (none, c) => (true, c)
  | (some .emptyAllowAll, c) => (true, c)
  | (some (.parsed body), c) => (allowOracle body u.path, c)

/-- A concrete URL for exercising the robots policy. -/
def robotsProbeURL : GoURL where
  scheme := ("https" : String).toList
  host := ("example.test" : String).toList
  path := ("/a" : String).toList
  query := []
  fragment := []

/-- C7 (counterexample): a 204 response — a 2xx status — is not cached and
does not produce a parsed record: `getRobotsData` treats every status
other than 200 and 404 as a failure, so `CanFetch` merely fails open
(even against a deny-everything rule oracle) and the next URL refetches. -/
theorem robots_2xx_cex :
    getRobotsData [] (robotsKey robotsProbeURL) 0 (.status 204 []) = (none, []) ∧
    CanFetch [] robotsProbeURL 0 (.status 204 []) (fun _ _ => false) = (true, []) := by
  refine ⟨by decide, by decide⟩

/-- C7 (amended): on an empty cache, a 200 response caches the parsed
record under `scheme+host` for 24 hours and `can_fetch` consults it; a
404 caches the empty allow-all record for 24 hours and `can_fetch`
returns true; any other status — including other 2xx codes — and any
transport error return true (fail-open) and cache nothing, so the next
URL retries the fetch. -/
theorem robots_policy_amended (u : GoURL) (now code : Nat) (body : List Char)
    (oracle : List Char → List Char → Bool) :
    CanFetch [] u now (.status code body) oracle =
      (if code = 200 then
        (oracle body u.path, [(robotsKey u, ⟨.parsed body, now + robotsTTL⟩)])
       else if code = 404 then
        (true, [(robotsKey u, ⟨.emptyAllowAll, now + robotsTTL⟩)])
       else (true, [])) ∧
    CanFetch [] u now .netErr oracle = (true, []) := by
  constructor
  · by_cases h200 : code = 200
    · subst h200
      simp [CanFetch, getRobotsData, getRobotsFetch, lookupR, insertR]
    · by_cases h404 : code = 404
      · subst h404
        simp [CanFetch, getRobotsData, getRobotsFetch, lookupR, insertR]
      · simp [CanFetch, getRobotsData, getRobotsFetch, lookupR, insertR, h200, h404]
  · rfl

/-!
Vector index and embed pipeline: embedding of
`ChromaRepository.StoreChunks` and `Service.ProcessPageContent`.  The
vector index is external (ChromaDB); per §4.6 of the specification its
contract is a keyed store where inserting an existing id replaces the
record, so it is modelled as a map from ids to records.  The embedder is
a function parameter, per §4.5's contract that embedding is
deterministic for a fixed model. -/

/-- Decimal digit character. -/
def digitChar (n : Nat) : Char := Char.ofNat (48 + n)

/-- Decimal rendering of a natural number (the behaviour of Go
`fmt.Sprintf("%d", n)`), with explicit fuel for structural recursion. -/
def natDecAux : Nat → Nat → List Char
  | 0, _ => []
  | fuel + 1, n =>
    if n < 10 then [digitChar n] else natDecAux fuel (n / 10) ++ [digitChar (n % 10)]

/-- Decimal rendering of a natural number. -/
def natDec (n : Nat) : List Char := natDecAux (n + 1) n

/-- Decimal reading, inverse of `natDec`. -/
def decVal (l : List Char) : Nat := l.foldl (fun a c => a * 10 + (c.toNat - 48)) 0

/-- The chunk id written by `StoreChunks`:
`fmt.Sprintf("page_%d_chunk_%d", pageID, i)`. -/
def chunkId (pageId i : Nat) : List Char :=
  ("page_" : String).toList ++ natDec pageId ++ ("_chunk_" : String).toList ++ natDec i

/-- One record of the vector index: document text, the metadata map
`{website_id, page_id, page_url, chunk_index, chunk_size}` and the
embedding. -/
structure VecRecord where
  document : List Char
  websiteId : Nat
  pageId : Nat
  pageUrl : List Char
  chunkIndex : Nat
  chunkSize : Nat
  embedding : List Int
deriving Repr

/-- The id-to-record writes `StoreChunks` performs, in ascending chunk
index, starting at index `start`. -/
def chunkWritesAux (websiteId pageId : Nat) (pageUrl : List Char) :
    Nat → List (List Char × List Int) → List (List Char × VecRecord)
  | _, [] => []
  | i, (c, e) :: rest =>
    (chunkId pageId i,
      { document := c, websiteId := websiteId, pageId := pageId, pageUrl := pageUrl,
        chunkIndex := i, chunkSize := c.length, embedding := e }) ::
      chunkWritesAux websiteId pageId pageUrl (i + 1) rest

/-- Sequential keyed writes into the index, later writes overwriting
earlier ones — §4.6's overwrite contract for the external index. -/
def applyWrites (f : List Char → Option VecRecord) :
    List (List Char × VecRecord) → (List Char → Option VecRecord)
  | [] => f
  | (k, v) :: rest => applyWrites (fun x => if x = k then some v else f x) rest

/-- Embedding of `ChromaRepository.StoreChunks`: reject a length mismatch,
then write every chunk under its deterministic id with its metadata. -/
def StoreChunks (idx : List Char → Option VecRecord) (websiteId pageId : Nat)
    (pageUrl : List Char) (chunks : List (List Char)) (embeddings : List (List Int)) :
    Except (List Char) (List Char → Option VecRecord) :=
  if chunks.length ≠ embeddings.length then .error (("length mismatch" : String).toList)
  else .ok (applyWrites idx (chunkWritesAux websiteId pageId pageUrl 0 (chunks.zip embeddings)))

/-- Embedding of `Service.ProcessPageContent`: chunk the content, embed
each chunk in order (`Embedder.EmbedChunks` is sequential and
order-preserving), store all chunks.  An empty chunking fails the task. -/
def ProcessPageContent (emb : List Char → List Int)
    (idx : List Char → Option VecRecord) (websiteId pageId : Nat)
    (pageUrl content : List Char) :
    Except (List Char) (List Char → Option VecRecord) :=
  if (ChunkText content).length = 0 then .error (("no chunks generated from content" : String).toList)
  else StoreChunks idx websiteId pageId pageUrl (ChunkText content)
    ((ChunkText content).map emb)

lemma natDecAux_decVal : ∀ fuel n, n < fuel → decVal (natDecAux fuel n) = n := by
  intro fuel
  induction fuel with
  | zero => intro n h; omega
  | succ fuel ih =>
    intro n h
    simp only [natDecAux]
    by_cases h10 : n < 10
    · rw [if_pos h10]
      simp only [decVal, List.foldl, digitChar]
      have hv : (48 + n).isValidChar := by
        unfold Nat.isValidChar
        left
        omega
      rw [Char.ofNat, dif_pos hv]
      show 0 * 10 + ((Char.ofNatAux (48 + n) hv).toNat - 48) = n
      unfold Char.ofNatAux Char.toNat
      simp only [UInt32.toNat]
      simp
    · rw [if_neg h10]
      have hd : n / 10 < fuel := by omega
      have hrec := ih (n / 10) hd
      have hv : (48 + n % 10).isValidChar := by
        unfold Nat.isValidChar
        left
        have := Nat.mod_lt n (show 0 < 10 by omega)
        omega
      have hdigit : (digitChar (n % 10)).toNat = 48 + n % 10 := by
        unfold digitChar
        rw [Char.ofNat, dif_pos hv]
        unfold Char.ofNatAux Char.toNat
        simp only [UInt32.toNat]
        simp
      unfold decVal at hrec ⊢
      rw [List.foldl_append]
      rw [hrec]
      simp only [List.foldl, hdigit]
      have hmod := Nat.mod_lt n (show 0 < 10 by omega)
      have := Nat.div_add_mod n 10
      omega

lemma decVal_natDec (n : Nat) : decVal (natDec n) = n :=
  natDecAux_decVal (n + 1) n (by omega)

lemma natDec_inj {a b : Nat} (h : natDec a = natDec b) : a = b := by
  have := decVal_natDec a
  rw [h, decVal_natDec] at this
  omega

lemma chunkId_inj_right {p a b : Nat} (h : chunkId p a = chunkId p b) : a = b := by
  unfold chunkId at h
  exact natDec_inj (List.append_cancel_left h)

lemma applyWrites_not_mem {f : List Char → Option VecRecord} {x : List Char} :
    ∀ {L : List (List Char × VecRecord)}, (∀ kv ∈ L, kv.1 ≠ x) →
    applyWrites f L x = f x := by
  intro L
  induction L generalizing f with
  | nil => intro _; rfl
  | cons kv rest ih =>
    intro hL
    obtain ⟨k, v⟩ := kv
    simp only [applyWrites]
    rw [ih (fun q hq => hL q (List.mem_cons_of_mem _ hq))]
    have hk : k ≠ x := hL (k, v) (by simp)
    rw [if_neg (fun hc => hk hc.symm)]

lemma chunkWritesAux_keys {websiteId pageId : Nat} {pageUrl : List Char} :
    ∀ (pairs : List (List Char × List Int)) (start : Nat),
    ∀ kv ∈ chunkWritesAux websiteId pageId pageUrl start pairs,
    ∃ j, start ≤ j ∧ j < start + pairs.length ∧ kv.1 = chunkId pageId j := by
  intro pairs
  induction pairs with
  | nil => intro start kv hkv; simp [chunkWritesAux] at hkv
  | cons p rest ih =>
    intro start kv hkv
    obtain ⟨c, e⟩ := p
    simp only [chunkWritesAux] at hkv
    rcases List.mem_cons.mp hkv with h | h
    · subst h
      exact ⟨start, le_refl _, by simp, rfl⟩
    · obtain ⟨j, hj1, hj2, hj3⟩ := ih (start + 1) kv h
      exact ⟨j, by omega, by simp only [List.length_cons]; omega, hj3⟩

lemma applyWrites_chunkWrites_get (websiteId pageId : Nat) (pageUrl : List Char) :
    ∀ (pairs : List (List Char × List Int)) (start : Nat)
      (f : List Char → Option VecRecord) (i : Nat) (hi : i < pairs.length),
    applyWrites f (chunkWritesAux websiteId pageId pageUrl start pairs)
        (chunkId pageId (start + i)) =
      some { document := (pairs.get ⟨i, hi⟩).1, websiteId := websiteId,
             pageId := pageId, pageUrl := pageUrl, chunkIndex := start + i,
             chunkSize := (pairs.get ⟨i, hi⟩).1.length,
             embedding := (pairs.get ⟨i, hi⟩).2 } := by
  intro pairs
  induction pairs with
  | nil => intro start f i hi; simp at hi
  | cons p rest ih =>
    intro start f i hi
    obtain ⟨c, e⟩ := p
    simp only [chunkWritesAux, applyWrites]
    rcases i with _ | i'
    · -- the first write is the one looked up; the later writes have
      -- larger indices and therefore different ids
      have hrest : ∀ kv ∈ chunkWritesAux websiteId pageId pageUrl (start + 1) rest,
          kv.1 ≠ chunkId pageId (start + 0) := by
        intro kv hkv
        obtain ⟨j, hj1, _, hj3⟩ := chunkWritesAux_keys rest (start + 1) kv hkv
        rw [hj3]
        intro hc
        have := chunkId_inj_right hc
        omega
      rw [applyWrites_not_mem hrest]
      simp
    · have := ih (start + 1) (fun x => if x = chunkId pageId start then
        some { document := c, websiteId := websiteId, pageId := pageId,
               pageUrl := pageUrl, chunkIndex := start, chunkSize := c.length,
               embedding := e } else f x) i' (by simpa using Nat.lt_of_succ_lt_succ hi)
      have harith : start + 1 + i' = start + (i' + 1) := by omega
      rw [harith] at this
      rw [this]
      rfl

lemma applyWrites_eq_find :
    ∀ (L : List (List Char × VecRecord)) (f : List Char → Option VecRecord) (x : List Char),
    applyWrites f L x =
      match L.reverse.find? (fun q => q.1 = x) with
      | some q => some q.2
      | none => f x := by
  intro L
  induction L with
  | nil => intro f x; rfl
  | cons kv rest ih =>
    intro f x
    obtain ⟨k, v⟩ := kv
    simp only [applyWrites, List.reverse_cons, List.find?_append]
    rw [ih]
    cases h : rest.reverse.find? (fun q => q.1 = x) with
    | some q => simp [h]
    | none =>
      simp only [h, Option.none_or]
      by_cases hk : k = x
      · subst hk
        simp
      · have h1 : (decide (k = x)) = false := by simp [hk]
        simp only [List.find?]
        rw [h1]
        simp only [List.find?]
        rw [if_neg (fun hc : x = k => hk hc.symm)]

lemma applyWrites_idem (L : List (List Char × VecRecord))
    (f : List Char → Option VecRecord) :
    applyWrites (applyWrites f L) L = applyWrites f L := by
  funext x
  cases h : L.reverse.find? (fun q => q.1 = x) with
  | some q => rw [applyWrites_eq_find, h, applyWrites_eq_find, h]
  | none => rw [applyWrites_eq_find, h, applyWrites_eq_find, h]

/-- C3 (counterexample): the chunk ids written by `StoreChunks` use
underscores — `fmt.Sprintf("page_%d_chunk_%d", pageID, i)` — not the
hyphenated `page-{page_id}-chunk-{i}` the claim states. -/
theorem chunk_id_format_cex :
    chunkId 1 0 = ("page_1_chunk_0" : String).toList ∧
    chunkId 1 0 ≠ ("page-1-chunk-0" : String).toList := by
  refine ⟨by decide, by decide⟩

/-- C3 (amended): chunks are stored in the vector index under the
deterministic id `page_{page_id}_chunk_{i}` (underscores, not hyphens)
with metadata `{website_id, page_id, page_url, chunk_index, chunk_size}`,
and re-running the embed pipeline for the same `(page_id, cleaned_text)`
with the deterministic embedder leaves the vector index in the same
state: ids repeat, and the index's §4.6 overwrite contract makes the
second run a no-op. -/
theorem embed_idempotent_amended
    (emb : List Char → List Int) (idx : List Char → Option VecRecord)
    (websiteId pageId : Nat) (pageUrl content : List Char)
    (idx' : List Char → Option VecRecord)
    (h : ProcessPageContent emb idx websiteId pageId pageUrl content = .ok idx') :
    ProcessPageContent emb idx' websiteId pageId pageUrl content = .ok idx' ∧
    ∀ (i : Nat) (hi : i < (ChunkText content).length),
      idx' (chunkId pageId i) =
        some { document := (ChunkText content).get ⟨i, hi⟩, websiteId := websiteId,
               pageId := pageId, pageUrl := pageUrl, chunkIndex := i,
               chunkSize := ((ChunkText content).get ⟨i, hi⟩).length,
               embedding := emb ((ChunkText content).get ⟨i, hi⟩) } := by
  unfold ProcessPageContent StoreChunks at h ⊢
  by_cases hc : (ChunkText content).length = 0
  · rw [if_pos hc] at h
    exact absurd h (by simp)
  · rw [if_neg hc] at h ⊢
    have hlen : ¬ (ChunkText content).length ≠ ((ChunkText content).map emb).length := by
      simp
    rw [if_neg hlen] at h ⊢
    rw [Except.ok.injEq] at h
    constructor
    · rw [Except.ok.injEq, ← h, applyWrites_idem]
    · intro i hi
      rw [← h]
      have hzlen : i < ((ChunkText content).zip ((ChunkText content).map emb)).length := by
        rw [List.length_zip, List.length_map]
        omega
      have hget := applyWrites_chunkWrites_get websiteId pageId pageUrl
        ((ChunkText content).zip ((ChunkText content).map emb)) 0 idx i hzlen
      rw [Nat.zero_add] at hget
      rw [hget]
      have hz : ((ChunkText content).zip ((ChunkText content).map emb)).get ⟨i, hzlen⟩ =
          ((ChunkText content).get ⟨i, hi⟩, emb ((ChunkText content).get ⟨i, hi⟩)) := by
        rw [List.get_eq_getElem, List.get_eq_getElem, List.getElem_zip, List.getElem_map]
      rw [hz]

/-- C3 witness: a one-chunk content embedded into an empty index; the id
`page_1_chunk_0` maps to the record, and re-running the pipeline returns
the same index. -/
theorem embed_idempotent_witness :
    ProcessPageContent (fun _ => [(1 : Int)]) (fun _ => none) 1 1
        (("https://a.test/x" : String).toList) (("Hello" : String).toList) =
      .ok (applyWrites (fun _ => none)
        (chunkWritesAux 1 1 (("https://a.test/x" : String).toList) 0
          [(("Hello" : String).toList, [(1 : Int)])])) ∧
    ProcessPageContent (fun _ => [(1 : Int)])
        (applyWrites (fun _ => none)
          (chunkWritesAux 1 1 (("https://a.test/x" : String).toList) 0
            [(("Hello" : String).toList, [(1 : Int)])])) 1 1
        (("https://a.test/x" : String).toList) (("Hello" : String).toList) =
      .ok (applyWrites (fun _ => none)
        (chunkWritesAux 1 1 (("https://a.test/x" : String).toList) 0
          [(("Hello" : String).toList, [(1 : Int)])])) := by
  have h : ProcessPageContent (fun _ => [(1 : Int)]) (fun _ => none) 1 1
      (("https://a.test/x" : String).toList) (("Hello" : String).toList) =
    .ok (applyWrites (fun _ => none)
      (chunkWritesAux 1 1 (("https://a.test/x" : String).toList) 0
        [(("Hello" : String).toList, [(1 : Int)])])) := by rfl
  exact ⟨h, (embed_idempotent_amended (fun _ => [(1 : Int)]) (fun _ => none) 1 1
    (("https://a.test/x" : String).toList) (("Hello" : String).toList) _ h).1⟩

/-!
Streaming RAG: embedding of `WebsiteController.QueryWebsiteStream` and
`RAGService.QueryStream`.  Retrieval is an explicit outcome (the vector
query is external).  The streaming LLM call `GenerateWithContextStream`
is not part of the repository source, so its behaviour is modelled from
the spec (§4.13): `emit` is called once per token in generation order;
on remote failure the partial output already emitted stands and the call
returns the error. -/

/-- A retrieved source, as `RAGService` builds it from result metadata. -/
structure QuerySource where
  pageUrl : List Char
  chunkText : List Char
  chunkIndex : Nat
  pageId : Nat
deriving DecidableEq, Repr

/-- The metadata `QueryStream` returns to the controller. -/
structure StreamMeta where
  sources : List QuerySource
  retrievedChunks : Nat
deriving DecidableEq, Repr

/-- Modelled from the spec: `GenerateWithContextStream` (the streaming LLM
client, absent from the repository source — only its caller is present)
either emits all its tokens in order and succeeds, or emits a prefix of
tokens and fails; §4.13. -/
inductive GenOutcome where
  | success (tokens : List (List Char))
  | failure (emittedBefore : List (List Char))
deriving DecidableEq, Repr

/-- The canned no-content answer of `QueryStream`. -/
def cannedNoContent : List Char :=
  ("I couldn't find any relevant information to answer your question. The website might not have been crawled yet, or there's no content matching your query." : String).toList

/-- Embedding of `RAGService.QueryStream`: retrieval failure is an error
before any token; empty retrieval emits the canned message as a single
chunk and succeeds with zero sources; otherwise the tokens of the
generator flow through the callback unchanged and in order (the service
passes the controller's callback directly to the generator — no
buffering), and on success the sources and retrieved count are returned.
The first component is the token sequence handed to the callback. -/
def QueryStream (retrieval : Except Unit (List QuerySource)) (gen : GenOutcome) :
    List (List Char) × Except Unit StreamMeta :=
  match retrieval with
  | .error _ => ([], .error ())
  | .ok [] => ([cannedNoContent], .ok ⟨[], 0⟩)
  | .ok results =>
    match gen with
    | .failure ts => (ts, .error ())
    | .success ts => (ts, .ok ⟨results, results.length⟩)

/-- SSE events written by the controller, as `event` kind plus the
`data:` payload text. -/
inductive SseEvent where
  | startEv (data : List Char)
  | chunkEv (data : List Char)
  | metadataEv (data : List Char)
  | doneEv (data : List Char)
  | errorEv (data : List Char)
deriving DecidableEq, Repr

/-- Payload of the `start` event: `{"query":"%s"}`. -/
def startData (q : List Char) : List Char :=
  ("\x7b\"query\":\"" : String).toList ++ q ++ ("\"\x7d" : String).toList

/-- Payload of the `metadata` event:
`{"retrieved_chunks":%d,"sources_count":%d}` — the counts only, not the
sources themselves. -/
def metadataData (retrieved sourcesCount : Nat) : List Char :=
  ("\x7b\"retrieved_chunks\":" : String).toList ++ natDec retrieved ++
  (",\"sources_count\":" : String).toList ++ natDec sourcesCount ++
  ("\x7d" : String).toList

/-- Payload of the `done` event. -/
def doneData : List Char := ("\x7b\"status\":\"complete\"\x7d" : String).toList

/-- Payload of the `error` event. -/
def errorData : List Char :=
  ("\x7b\"error\":\"Failed to process query\"\x7d" : String).toList

/-- Embedding of `WebsiteController.QueryWebsiteStream` after request
validation: write the `start` event, stream each callback token as a
`chunk` event immediately (each is flushed as it arrives), then either
one `error` event, or one `metadata` event carrying the retrieved and
source counts followed by one `done` event. -/
def QueryWebsiteStream (q : List Char) (retrieval : Except Unit (List QuerySource))
    (gen : GenOutcome) : List SseEvent :=
  SseEvent.startEv (startData q) ::
    ((QueryStream retrieval gen).1.map SseEvent.chunkEv ++
      (match (QueryStream retrieval gen).2 with
       | .error _ => [SseEvent.errorEv errorData]
       | .ok meta =>
         [SseEvent.metadataEv (metadataData meta.retrievedChunks meta.sources.length),
          SseEvent.doneEv doneData]))

/-- Whether `needle` is an initial segment of `hay`. -/
def startsWithL : List Char → List Char → Bool
  | [], _ => true
  | _ :: _, [] => false
  | a :: as, b :: bs => a = b && startsWithL as bs

/-- Whether `needle` occurs contiguously anywhere in `hay`. -/
def hasSub (needle : List Char) : List Char → Bool
  | [] => startsWithL needle []
  | c :: t => startsWithL needle (c :: t) || hasSub needle t

/-- A concrete retrieved source. -/
def probeSource : QuerySource where
  pageUrl := ("https://a.test/page" : String).toList
  chunkText := ("some text" : String).toList
  chunkIndex := 0
  pageId := 3

/-- C9 (counterexample): for a successful one-source streaming query the
`metadata` event payload is exactly
`{"retrieved_chunks":1,"sources_count":1}` — it carries the counts only;
the source's `page_url` appears nowhere in it, so the metadata event does
not carry the sources as the claim states. -/
theorem stream_metadata_cex :
    QueryWebsiteStream (("q" : String).toList) (.ok [probeSource])
        (.success [("tok" : String).toList]) =
      [SseEvent.startEv (startData (("q" : String).toList)),
       SseEvent.chunkEv (("tok" : String).toList),
       SseEvent.metadataEv (metadataData 1 1),
       SseEvent.doneEv doneData] ∧
    hasSub probeSource.pageUrl (metadataData 1 1) = false := by
  refine ⟨rfl, by decide⟩

/-- C9 (amended): every streaming query emits one `start` event, then the
callback tokens in arrival order as `chunk` events (unbuffered — the
emitted chunk payloads are exactly the token sequence of the model), then
exactly one terminal outcome: either exactly one `metadata` event
carrying the retrieved count and the count of sources (not the sources
themselves) followed by exactly one `done` event, or exactly one `error`
event. -/
theorem stream_event_order_amended (q : List Char)
    (retrieval : Except Unit (List QuerySource)) (gen : GenOutcome) :
    (∃ ts : List (List Char), ∃ m : StreamMeta,
      QueryStream retrieval gen = (ts, .ok m) ∧
      QueryWebsiteStream q retrieval gen =
        SseEvent.startEv (startData q) ::
          (ts.map SseEvent.chunkEv ++
            [SseEvent.metadataEv (metadataData m.retrievedChunks m.sources.length),
             SseEvent.doneEv doneData])) ∨
    (∃ ts : List (List Char),
      QueryStream retrieval gen = (ts, .error ()) ∧
      QueryWebsiteStream q retrieval gen =
        SseEvent.startEv (startData q) ::
          (ts.map SseEvent.chunkEv ++ [SseEvent.errorEv errorData])) := by
  rcases retrieval with e | results
  · exact Or.inr ⟨[], rfl, rfl⟩
  · rcases results with _ | ⟨r, rs⟩
    · exact Or.inl ⟨[cannedNoContent], ⟨[], 0⟩, rfl, rfl⟩
    · rcases gen with ts | ts
      · exact Or.inl ⟨ts, ⟨r :: rs, (r :: rs).length⟩, rfl, rfl⟩
      · exact Or.inr ⟨ts, rfl, rfl⟩

lemma takeWhile_dropWhile_append {p : Char → Bool} :
    ∀ {a : List Char} (b : List Char), (∀ x ∈ a, p x = true) →
    (∀ c, b.head? = some c → p c = false) →
    (a ++ b).takeWhile p = a ∧ (a ++ b).dropWhile p = b := by
  intro a
  induction a with
  | nil =>
    intro b _ hb
    simp only [List.nil_append]
    cases b with
    | nil => exact ⟨rfl, rfl⟩
    | cons c t =>
      have hc : ¬ p c = true := by simp [hb c rfl]
      exact ⟨List.takeWhile_cons_of_neg hc, List.dropWhile_cons_of_neg hc⟩
  | cons x a' ih =>
    intro b ha hb
    have hx : p x = true := ha x (by simp)
    obtain ⟨h1, h2⟩ := ih b (fun y hy => ha y (by simp [hy])) hb
    constructor
    · simp only [List.cons_append]
      rw [List.takeWhile_cons_of_pos hx, h1]
    · simp only [List.cons_append]
      rw [List.dropWhile_cons_of_pos hx, h2]

lemma checkURL_some {sch host path q f : List Char} {u : GoURL}
    (h : checkURL sch host path q f = some u) :
    u = ⟨sch, host, path, q, f⟩ ∧ validScheme sch = true ∧ validHost host = true ∧
    validPath path = true ∧ validQuery q = true ∧ validFrag f = true := by
  unfold checkURL at h
  split at h
  · next hv =>
    simp only [Option.some.injEq] at h
    simp only [Bool.and_eq_true] at hv
    exact ⟨h.symm, hv.1.1.1.1, hv.1.1.1.2, hv.1.1.2, hv.1.2, hv.2⟩
  · exact absurd h (by simp)

lemma parseQF_checkURL {sch host path rest : List Char} {u : GoURL}
    (h : parseQF sch host path rest = some u) :
    ∃ q f, checkURL sch host path q f = some u := by
  unfold parseQF at h
  split at h
  · exact ⟨_, _, h⟩
  · split at h
    · exact ⟨_, _, h⟩
    · exact ⟨_, _, h⟩
    · exact absurd h (by simp)
  · exact ⟨_, _, h⟩
  · exact absurd h (by simp)

lemma parseGoURL_checkURL {s : List Char} {u : GoURL}
    (h : parseGoURL s = some u) :
    ∃ sch host path q f, checkURL sch host path q f = some u := by
  unfold parseGoURL at h
  split at h
  · obtain ⟨q, f, hc⟩ := parseQF_checkURL h
    exact ⟨_, _, _, q, f, hc⟩
  · exact absurd h (by simp)

lemma parseGoURL_valid {s : List Char} {u : GoURL} (h : parseGoURL s = some u) :
    validScheme u.scheme = true ∧ validHost u.host = true ∧
    validPath u.path = true ∧ validQuery u.query = true ∧
    validFrag u.fragment = true := by
  obtain ⟨sch, host, path, q, f, hc⟩ := parseGoURL_checkURL h
  obtain ⟨hu, h1, h2, h3, h4, h5⟩ := checkURL_some hc
  subst hu
  exact ⟨h1, h2, h3, h4, h5⟩

lemma validScheme_no_colon {sch : List Char} (h : validScheme sch = true) :
    ∀ x ∈ sch, (!(x = ':')) = true := by
  intro x hx
  unfold validScheme at h
  rw [Bool.and_eq_true] at h
  have := List.all_eq_true.mp h.2 x hx
  simp only [schemeChar, Bool.or_eq_true, decide_eq_true_eq, isAsciiAlpha,
    isAsciiDigit] at this
  simp only [Bool.not_eq_true', decide_eq_false_iff_not]
  intro hc
  subst hc
  revert this
  decide

lemma validHost_not_hostEnd {host : List Char} (h : validHost host = true) :
    ∀ x ∈ host, (!(hostEnd x)) = true := by
  intro x hx
  unfold validHost at h
  rw [Bool.and_eq_true] at h
  have := List.all_eq_true.mp h.2 x hx
  simp only [hostChar, Bool.or_eq_true, decide_eq_true_eq, isAsciiAlpha,
    isAsciiDigit] at this
  simp only [hostEnd, Bool.not_eq_true', Bool.or_eq_false_iff,
    decide_eq_false_iff_not]
  refine ⟨⟨?_, ?_⟩, ?_⟩ <;>
    · intro hc
      subst hc
      revert this
      decide

lemma validPath_not_pathEnd {path : List Char} (h : validPath path = true) :
    ∀ x ∈ path, (!(pathEnd x)) = true := by
  intro x hx
  unfold validPath at h
  rw [Bool.and_eq_true] at h
  have := List.all_eq_true.mp h.1 x hx
  simp only [pathChar, Bool.or_eq_true, decide_eq_true_eq, isAsciiAlpha,
    isAsciiDigit] at this
  simp only [pathEnd, Bool.not_eq_true', Bool.or_eq_false_iff,
    decide_eq_false_iff_not]
  constructor <;>
    · intro hc
      subst hc
      revert this
      decide

lemma validQuery_no_hash {q : List Char} (h : validQuery q = true) :
    ∀ x ∈ q, (!(x = '#')) = true := by
  intro x hx
  unfold validQuery at h
  rw [Bool.and_eq_true] at h
  have := List.all_eq_true.mp h.1 x hx
  simp only [queryChar, Bool.or_eq_true, decide_eq_true_eq, isAsciiAlpha,
    isAsciiDigit] at this
  simp only [Bool.not_eq_true', decide_eq_false_iff_not]
  intro hc
  subst hc
  revert this
  decide

lemma parseQF_nil (sch host path : List Char) :
    parseQF sch host path [] = checkURL sch host path [] [] := rfl

lemma parseQF_hash (sch host path f : List Char) :
    parseQF sch host path ('#' :: f) = checkURL sch host path [] f := rfl

lemma parseQF_quest (sch host path r : List Char) :
    parseQF sch host path ('?' :: r) =
      (match r.dropWhile (fun c => !(c = '#')) with
      | [] => checkURL sch host path (r.takeWhile (fun c => !(c = '#'))) []
      | '#' :: f => checkURL sch host path (r.takeWhile (fun c => !(c = '#'))) f
      | _ => none) := rfl

lemma checkURL_of_valid {sch host path q f : List Char}
    (hs : validScheme sch = true) (hh : validHost host = true)
    (hp : validPath path = true) (hq : validQuery q = true)
    (hf : validFrag f = true) :
    checkURL sch host path q f = some ⟨sch, host, path, q, f⟩ := by
  unfold checkURL
  rw [hs, hh, hp, hq, hf]
  rfl

lemma parseGoURL_urlString {u : GoURL}
    (hs : validScheme u.scheme = true) (hh : validHost u.host = true)
    (hp : validPath u.path = true) (hq : validQuery u.query = true)
    (hf : validFrag u.fragment = true) :
    parseGoURL (urlString u) = some u := by
  obtain ⟨sch, host, path, q, f⟩ := u
  have hs' : validScheme sch = true := hs
  have hh' : validHost host = true := hh
  have hp' : validPath path = true := hp
  have hq' : validQuery q = true := hq
  have hf' : validFrag f = true := hf
  have hflat : urlString ⟨sch, host, path, q, f⟩ =
      sch ++ ':' :: '/' :: '/' ::
        (host ++ (path ++
          ((if q.isEmpty then [] else '?' :: q) ++
           (if f.isEmpty then [] else '#' :: f)))) := by
    simp [urlString]
  rw [hflat]
  -- scheme span
  obtain ⟨ht1, hd1⟩ := takeWhile_dropWhile_append (p := fun c => !(c = ':'))
    (a := sch)
    (':' :: '/' :: '/' ::
      (host ++ (path ++
        ((if q.isEmpty then [] else '?' :: q) ++
         (if f.isEmpty then [] else '#' :: f)))))
    (validScheme_no_colon hs) (by intro c hc; injection hc with hc; subst hc; rfl)
  unfold parseGoURL
  rw [hd1]
  simp only []
  rw [ht1]
  -- host span
  unfold parsePQF
  obtain ⟨ht2, hd2⟩ := takeWhile_dropWhile_append (p := fun c => !(hostEnd c))
    (a := host)
    (path ++
      ((if q.isEmpty then [] else '?' :: q) ++
       (if f.isEmpty then [] else '#' :: f)))
    (validHost_not_hostEnd hh)
    (by
      intro c hc
      rcases hpe : path with _ | ⟨pc, pr⟩
      · rcases hqe : q with _ | ⟨qc, qr⟩
        · rcases hfe : f with _ | ⟨fc, fr⟩
          · rw [hpe, hqe, hfe] at hc
            simp at hc
          · rw [hpe, hqe, hfe] at hc
            simp only [List.isEmpty_nil, List.isEmpty_cons, List.nil_append,
              if_true, if_false] at hc
            injection hc with hc
            subst hc
            rfl
        · rw [hpe, hqe] at hc
          simp only [List.isEmpty_cons, List.nil_append, if_false] at hc
          rcases hfe : f.isEmpty <;> rw [hfe] at hc <;>
            · injection hc with hc
              subst hc
              rfl
      · rw [hpe] at hc
        have hphead : pc = '/' := by
          unfold validPath at hp
          rw [Bool.and_eq_true] at hp
          rw [hpe] at hp
          have := hp.2
          simp at this
          exact this
        simp only [List.cons_append] at hc
        injection hc with hc
        subst hc
        rw [hphead]
        rfl)
  rw [ht2, hd2]
  -- path span
  obtain ⟨ht3, hd3⟩ := takeWhile_dropWhile_append (p := fun c => !(pathEnd c))
    (a := path)
    ((if q.isEmpty then [] else '?' :: q) ++
     (if f.isEmpty then [] else '#' :: f))
    (validPath_not_pathEnd hp)
    (by
      intro c hc
      rcases hqe : q with _ | ⟨qc, qr⟩
      · rcases hfe : f with _ | ⟨fc, fr⟩
        · rw [hqe, hfe] at hc
          simp at hc
        · rw [hqe, hfe] at hc
          simp only [List.isEmpty_nil, List.isEmpty_cons, List.nil_append,
            if_true, if_false] at hc
          injection hc with hc
          subst hc
          rfl
      · rw [hqe] at hc
        simp only [List.isEmpty_cons, if_false, List.cons_append] at hc
        injection hc with hc
        subst hc
        rfl)
  rw [ht3, hd3]
  -- query and fragment
  rcases q with _ | ⟨qc, qr⟩
  · rcases f with _ | ⟨fc, fr⟩
    · simp only [List.isEmpty_nil, if_true, List.nil_append]
      rw [parseQF_nil]
      exact checkURL_of_valid hs' hh' hp' hq' hf'
    · simp only [List.isEmpty_nil, List.isEmpty_cons, Bool.false_eq_true,
        if_true, if_false, List.nil_append]
      rw [parseQF_hash]
      exact checkURL_of_valid hs' hh' hp' hq' hf'
  · have hqnh : ∀ x ∈ qc :: qr, (!(x = '#')) = true := validQuery_no_hash hq'
    rcases f with _ | ⟨fc, fr⟩
    · simp only [List.isEmpty_cons, List.isEmpty_nil, Bool.false_eq_true,
        if_false, if_true, List.append_nil, List.cons_append]
      rw [parseQF_quest]
      obtain ⟨ht4, hd4⟩ := takeWhile_dropWhile_append (p := fun c => !(c = '#'))
        (a := qc :: qr) [] hqnh (by intro c hc; simp at hc)
      simp only [List.append_nil] at ht4 hd4
      rw [hd4, ht4]
      exact checkURL_of_valid hs' hh' hp' hq' hf'
    · simp only [List.isEmpty_cons, Bool.false_eq_true, if_false,
        List.cons_append]
      rw [parseQF_quest]
      obtain ⟨ht4, hd4⟩ := takeWhile_dropWhile_append (p := fun c => !(c = '#'))
        (a := qc :: qr) ('#' :: fc :: fr) hqnh
        (by
          intro c hc
          injection hc with hc
          subst hc
          rfl)
      simp only [List.cons_append] at ht4 hd4
      rw [hd4, ht4]
      exact checkURL_of_valid hs' hh' hp' hq' hf'

/-! Character-level lemmas about `goToLower` and the charsets. -/

lemma toNat_ofNat_small {n : Nat} (h : n < 55296) : (Char.ofNat n).toNat = n := by
  have hv : n.isValidChar := Or.inl h
  rw [Char.ofNat, dif_pos hv]
  show (Char.ofNatAux n hv).toNat = n
  unfold Char.ofNatAux Char.toNat
  simp only [UInt32.toNat]
  simp

lemma goToLower_toNat (c : Char) :
    (goToLower c).toNat =
      if 65 ≤ c.toNat ∧ c.toNat ≤ 90 then c.toNat + 32 else c.toNat := by
  unfold goToLower
  by_cases h : 65 ≤ c.toNat ∧ c.toNat ≤ 90
  · rw [if_pos h, if_pos h]
    exact toNat_ofNat_small (by omega)
  · rw [if_neg h, if_neg h]

lemma goToLower_of_not_upper {c : Char} (h : ¬(65 ≤ c.toNat ∧ c.toNat ≤ 90)) :
    goToLower c = c := by
  unfold goToLower
  rw [if_neg h]

lemma goToLower_idem (c : Char) : goToLower (goToLower c) = goToLower c := by
  apply goToLower_of_not_upper
  rw [goToLower_toNat]
  by_cases h : 65 ≤ c.toNat ∧ c.toNat ≤ 90
  · rw [if_pos h]
    omega
  · rw [if_neg h]
    omega

lemma isAsciiAlpha_goToLower {c : Char} (h : isAsciiAlpha c = true) :
    isAsciiAlpha (goToLower c) = true := by
  unfold isAsciiAlpha at h ⊢
  simp only [decide_eq_true_eq] at h ⊢
  rw [goToLower_toNat]
  by_cases hu : 65 ≤ c.toNat ∧ c.toNat ≤ 90
  · rw [if_pos hu]
    omega
  · rw [if_neg hu]
    omega

lemma schemeChar_goToLower {c : Char} (h : schemeChar c = true) :
    schemeChar (goToLower c) = true := by
  unfold schemeChar isAsciiAlpha isAsciiDigit at h ⊢
  simp only [Bool.or_eq_true, decide_eq_true_eq] at h ⊢
  rw [goToLower_toNat]
  by_cases hu : 65 ≤ c.toNat ∧ c.toNat ≤ 90
  · rw [if_pos hu]
    omega
  · rw [if_neg hu]
    omega

lemma hostChar_goToLower {c : Char} (h : hostChar c = true) :
    hostChar (goToLower c) = true := by
  unfold hostChar isAsciiAlpha isAsciiDigit at h ⊢
  simp only [Bool.or_eq_true, decide_eq_true_eq] at h ⊢
  rw [goToLower_toNat]
  by_cases hu : 65 ≤ c.toNat ∧ c.toNat ≤ 90
  · rw [if_pos hu]
    omega
  · rw [if_neg hu]
    omega

lemma all_map_of_all {l : List Char} {f : Char → Char} {p : Char → Bool}
    (hf : ∀ c, p c = true → p (f c) = true) (h : l.all p = true) :
    (l.map f).all p = true := by
  rw [List.all_eq_true] at h ⊢
  intro x hx
  rw [List.mem_map] at hx
  obtain ⟨a, ha, rfl⟩ := hx
  exact hf a (h a ha)

lemma validScheme_map_goToLower {l : List Char} (h : validScheme l = true) :
    validScheme (l.map goToLower) = true := by
  rcases l with _ | ⟨c, r⟩
  · exact h
  · have h2 : (isAsciiAlpha c && (c :: r).all schemeChar) = true := h
    show (isAsciiAlpha (goToLower c) && ((c :: r).map goToLower).all schemeChar) = true
    rw [Bool.and_eq_true] at h2 ⊢
    exact ⟨isAsciiAlpha_goToLower h2.1,
      all_map_of_all (fun a ha => schemeChar_goToLower ha) h2.2⟩

lemma validHost_map_goToLower {l : List Char} (h : validHost l = true) :
    validHost (l.map goToLower) = true := by
  unfold validHost at h ⊢
  rw [Bool.and_eq_true] at h ⊢
  refine ⟨?_, all_map_of_all (fun a ha => hostChar_goToLower ha) h.2⟩
  rcases l with _ | ⟨c, r⟩
  · exact h.1
  · rfl

/-! Path-level lemmas: `trimOneSlash` and `normPath`. -/

lemma head?_dropLast {l : List Char} (h : l.dropLast ≠ []) :
    l.dropLast.head? = l.head? := by
  rcases l with _ | ⟨a, r⟩
  · simp at h
  · rcases r with _ | ⟨b, t⟩
    · simp at h
    · rfl

lemma validPath_normPath {p : List Char} (h : validPath p = true) :
    validPath (normPath p) = true := by
  unfold normPath
  by_cases h0 : trimOneSlash p = []
  · rw [if_pos h0]
    decide
  · rw [if_neg h0]
    unfold trimOneSlash at h0 ⊢
    by_cases hc : p ≠ ['/'] ∧ p.getLast? = some '/'
    · rw [if_pos hc] at h0 ⊢
      unfold validPath at h ⊢
      rw [Bool.and_eq_true] at h ⊢
      constructor
      · rw [List.all_eq_true] at h ⊢
        · intro x hx
          exact h.1 x ((List.dropLast_sublist p).subset hx)
      · rw [Bool.or_eq_true, decide_eq_true_eq]  at h ⊢
        right
        rw [head?_dropLast h0]
        have hne : p ≠ [] := by
          intro he
          rw [he] at hc
          simp at hc
        rcases h.2 with h2 | h2
        · exact absurd (List.isEmpty_iff.mp h2) hne
        · exact h2
    · rw [if_neg hc] at h0 ⊢
      exact h

lemma normPath_ne_nil (p : List Char) : normPath p ≠ [] := by
  unfold normPath
  by_cases h0 : trimOneSlash p = []
  · rw [if_pos h0]
    simp
  · rw [if_neg h0]
    exact h0

lemma normPath_idem {p : List Char}
    (hcond : normPath p = ['/'] ∨ (normPath p).getLast? ≠ some '/') :
    normPath (normPath p) = normPath p := by
  rcases hcond with hc | hc
  · rw [hc]
    decide
  · have ht : trimOneSlash (normPath p) = normPath p := by
      unfold trimOneSlash
      rw [if_neg (fun h2 => hc h2.2)]
    show (if trimOneSlash (normPath p) = [] then ['/'] else trimOneSlash (normPath p)) =
      normPath p
    rw [ht, if_neg (normPath_ne_nil p)]

/-! Query-level lemmas: `splitOnChar`, `joinAmp`, `cutEq`. -/

lemma splitOnChar_cons (sep c : Char) (l : List Char) :
    splitOnChar sep (c :: l) =
      if c = sep then [] :: splitOnChar sep l
      else match splitOnChar sep l with
        | [] => [[c]]
        | h :: t => (c :: h) :: t := rfl

lemma splitOnChar_ne_nil (sep : Char) (l : List Char) : splitOnChar sep l ≠ [] := by
  induction l with
  | nil => simp [splitOnChar]
  | cons c rest ih =>
    rw [splitOnChar_cons]
    by_cases h : c = sep
    · rw [if_pos h]
      simp
    · rw [if_neg h]
      rcases hs : splitOnChar sep rest with _ | ⟨h1, t1⟩
      · simp
      · simp

lemma not_mem_of_mem_splitOnChar {sep : Char} {l s : List Char}
    (hs : s ∈ splitOnChar sep l) : sep ∉ s := by
  induction l generalizing s with
  | nil =>
    simp [splitOnChar] at hs
    subst hs
    simp
  | cons c rest ih =>
    rw [splitOnChar_cons] at hs
    by_cases h : c = sep
    · rw [if_pos h] at hs
      rcases List.mem_cons.mp hs with rfl | hmem
      · simp
      · exact ih hmem
    · rw [if_neg h] at hs
      rcases hsp : splitOnChar sep rest with _ | ⟨h1, t1⟩
      · exact absurd hsp (splitOnChar_ne_nil sep rest)
      · rw [hsp] at hs
        rcases List.mem_cons.mp hs with rfl | hmem
        · intro hm
          rcases List.mem_cons.mp hm with he | hm2
          · exact h he.symm
          · exact ih (hsp ▸ List.mem_cons_self h1 t1) hm2
        · exact ih (by rw [hsp]; exact List.mem_cons_of_mem h1 hmem)

lemma mem_of_mem_splitOnChar {sep c : Char} {l s : List Char}
    (hs : s ∈ splitOnChar sep l) (hc : c ∈ s) : c ∈ l := by
  induction l generalizing s with
  | nil =>
    simp [splitOnChar] at hs
    subst hs
    simp at hc
  | cons d rest ih =>
    rw [splitOnChar_cons] at hs
    by_cases h : d = sep
    · rw [if_pos h] at hs
      rcases List.mem_cons.mp hs with rfl | hmem
      · simp at hc
      · exact List.mem_cons_of_mem d (ih hmem hc)
    · rw [if_neg h] at hs
      rcases hsp : splitOnChar sep rest with _ | ⟨h1, t1⟩
      · exact absurd hsp (splitOnChar_ne_nil sep rest)
      · rw [hsp] at hs
        rcases List.mem_cons.mp hs with rfl | hmem
        · rcases List.mem_cons.mp hc with rfl | hc2
          · exact List.mem_cons_self c rest
          · exact List.mem_cons_of_mem d (ih (hsp ▸ List.mem_cons_self h1 t1) hc2)
        · exact List.mem_cons_of_mem d
            (ih (by rw [hsp]; exact List.mem_cons_of_mem h1 hmem) hc)

lemma splitOnChar_eq_single {sep : Char} {l : List Char} (h : sep ∉ l) :
    splitOnChar sep l = [l] := by
  induction l with
  | nil => rfl
  | cons c rest ih =>
    rw [splitOnChar_cons,
      if_neg (fun he => h (by rw [← he]; exact List.mem_cons_self c rest)),
      ih (fun hm => h (List.mem_cons_of_mem c hm))]

lemma splitOnChar_append_sep {sep : Char} {seg t : List Char} (h : sep ∉ seg) :
    splitOnChar sep (seg ++ sep :: t) = seg :: splitOnChar sep t := by
  induction seg with
  | nil =>
    simp only [List.nil_append]
    rw [splitOnChar_cons, if_pos rfl]
  | cons c r ih =>
    simp only [List.cons_append]
    rw [splitOnChar_cons,
      if_neg (fun he => h (by rw [← he]; exact List.mem_cons_self c r)),
      ih (fun hm => h (List.mem_cons_of_mem c hm))]

lemma mem_joinAmp {c : Char} {segs : List (List Char)} (hc : c ∈ joinAmp segs) :
    c = '&' ∨ ∃ s ∈ segs, c ∈ s := by
  induction segs with
  | nil => simp [joinAmp] at hc
  | cons s r ih =>
    rcases r with _ | ⟨s2, r2⟩
    · exact Or.inr ⟨s, List.mem_cons_self s [], hc⟩
    · have hc2 : c ∈ s ++ '&' :: joinAmp (s2 :: r2) := hc
      rcases List.mem_append.mp hc2 with h1 | h1
      · exact Or.inr ⟨s, List.mem_cons_self s (s2 :: r2), h1⟩
      · rcases List.mem_cons.mp h1 with rfl | h2
        · exact Or.inl rfl
        · rcases ih h2 with h3 | ⟨s3, hs3, hcs3⟩
          · exact Or.inl h3
          · exact Or.inr ⟨s3, List.mem_cons_of_mem s hs3, hcs3⟩

lemma splitOnChar_joinAmp {segs : List (List Char)} (hne : segs ≠ [])
    (h : ∀ s ∈ segs, ('&' : Char) ∉ s) :
    splitOnChar '&' (joinAmp segs) = segs := by
  induction segs with
  | nil => exact absurd rfl hne
  | cons s r ih =>
    rcases r with _ | ⟨s2, r2⟩
    · show splitOnChar '&' s = [s]
      exact splitOnChar_eq_single (h s (List.mem_cons_self s []))
    · show splitOnChar '&' (s ++ '&' :: joinAmp (s2 :: r2)) = s :: s2 :: r2
      rw [splitOnChar_append_sep (h s (List.mem_cons_self s (s2 :: r2))),
        ih (by simp) (fun s3 hs3 => h s3 (List.mem_cons_of_mem s hs3))]

lemma cutEq_encode {k v : List Char} (hk : ('=' : Char) ∉ k) :
    cutEq (k ++ '=' :: v) = (k, v) := by
  obtain ⟨ht, hd⟩ := takeWhile_dropWhile_append (p := fun c => !(c = '='))
    (a := k) ('=' :: v)
    (fun x hx => by
      rw [Bool.not_eq_true', decide_eq_false_iff_not]
      exact fun he => hk (he ▸ hx))
    (fun c hc => by
      injection hc with hc
      subst hc
      rfl)
  unfold cutEq
  rw [hd, ht]
  rfl

lemma parseQuery_nil : parseQuery [] = [] := rfl

/-! Order theory of `lexLe` and structure of `sortKeys` / `dedupAdj`. -/

lemma char_eq_of_toNat {x y : Char} (h : x.toNat = y.toNat) : x = y := by
  apply Char.ext
  apply UInt32.toNat.inj
  exact h

lemma lexLe_refl (x : List Char) : lexLe x x = true := by
  induction x with
  | nil => rfl
  | cons c r ih =>
    unfold lexLe
    rw [if_pos rfl]
    exact ih

lemma lexLe_total (x y : List Char) : lexLe x y = true ∨ lexLe y x = true := by
  induction x generalizing y with
  | nil => exact Or.inl rfl
  | cons c r ih =>
    rcases y with _ | ⟨d, s⟩
    · exact Or.inr rfl
    · unfold lexLe
      by_cases h : c = d
      · rw [if_pos h, if_pos h.symm]
        exact ih s
      · rw [if_neg h, if_neg (fun he => h he.symm)]
        have hne : c.toNat ≠ d.toNat := fun hnn => h (char_eq_of_toNat hnn)
        rcases Nat.lt_or_ge c.toNat d.toNat with hlt | hge
        · exact Or.inl (decide_eq_true hlt)
        · exact Or.inr (decide_eq_true (by omega))

lemma lexLe_antisymm {x y : List Char} (hxy : lexLe x y = true)
    (hyx : lexLe y x = true) : x = y := by
  induction x generalizing y with
  | nil =>
    rcases y with _ | ⟨d, s⟩
    · rfl
    · exact absurd hyx (by simp [lexLe])
  | cons c r ih =>
    rcases y with _ | ⟨d, s⟩
    · exact absurd hxy (by simp [lexLe])
    · unfold lexLe at hxy hyx
      by_cases h : c = d
      · subst h
        rw [if_pos rfl] at hxy hyx
        rw [ih hxy hyx]
      · rw [if_neg h, decide_eq_true_eq] at hxy
        rw [if_neg (fun he => h he.symm), decide_eq_true_eq] at hyx
        exact absurd hyx (by omega)

lemma lexLe_trans {x y z : List Char} (hxy : lexLe x y = true)
    (hyz : lexLe y z = true) : lexLe x z = true := by
  induction x generalizing y z with
  | nil => rfl
  | cons c r ih =>
    rcases y with _ | ⟨d, s⟩
    · exact absurd hxy (by simp [lexLe])
    · rcases z with _ | ⟨e, t⟩
      · exact absurd hyz (by simp [lexLe])
      · unfold lexLe at hxy hyz ⊢
        by_cases hcd : c = d
        · subst hcd
          rw [if_pos rfl] at hxy
          by_cases hce : c = e
          · subst hce
            rw [if_pos rfl] at hyz ⊢
            exact ih hxy hyz
          · rw [if_neg hce] at hyz ⊢
            exact hyz
        · rw [if_neg hcd, decide_eq_true_eq] at hxy
          by_cases hde : d = e
          · subst hde
            rw [if_neg hcd, decide_eq_true_eq]
            exact hxy
          · rw [if_neg hde, decide_eq_true_eq] at hyz
            by_cases hce : c = e
            · subst hce
              exact absurd hyz (by omega)
            · rw [if_neg hce, decide_eq_true_eq]
              omega

lemma head?_insertSorted (x : List Char) (l : List (List Char)) :
    (insertSorted x l).head? = some x ∨ (insertSorted x l).head? = l.head? := by
  rcases l with _ | ⟨y, r⟩
  · exact Or.inl rfl
  · unfold insertSorted
    by_cases hxy : lexLe x y = true
    · rw [if_pos hxy]
      exact Or.inl rfl
    · rw [if_neg hxy]
      exact Or.inr rfl

lemma chain'_insertSorted {x : List Char} {l : List (List Char)}
    (h : List.Chain' (fun a b => lexLe a b = true) l) :
    List.Chain' (fun a b => lexLe a b = true) (insertSorted x l) := by
  induction l with
  | nil => simp [insertSorted]
  | cons y r ih =>
    unfold insertSorted
    by_cases hxy : lexLe x y = true
    · rw [if_pos hxy]
      exact List.chain'_cons.mpr ⟨hxy, h⟩
    · rw [if_neg hxy]
      rw [List.chain'_cons']
      refine ⟨?_, ih (List.chain'_cons'.mp h).2⟩
      intro z hz
      rw [Option.mem_def] at hz
      rcases head?_insertSorted x r with hh | hh
      · rw [hh] at hz
        injection hz with hz
        subst hz
        rcases lexLe_total x y with h1 | h1
        · exact absurd h1 hxy
        · exact h1
      · rw [hh] at hz
        exact (List.chain'_cons'.mp h).1 z hz

lemma chain'_sortKeys (l : List (List Char)) :
    List.Chain' (fun a b => lexLe a b = true) (sortKeys l) := by
  induction l with
  | nil => simp [sortKeys]
  | cons x r ih => exact chain'_insertSorted ih

lemma sortKeys_eq_self {l : List (List Char)}
    (h : List.Chain' (fun a b => lexLe a b = true) l) : sortKeys l = l := by
  induction l with
  | nil => rfl
  | cons x r ih =>
    unfold sortKeys
    rw [ih (List.chain'_cons'.mp h).2]
    rcases r with _ | ⟨y, t⟩
    · rfl
    · unfold insertSorted
      rw [if_pos ((List.chain'_cons'.mp h).1 y rfl)]

lemma mem_insertSorted {a x : List Char} {l : List (List Char)} :
    a ∈ insertSorted x l ↔ a = x ∨ a ∈ l := by
  induction l with
  | nil => simp [insertSorted]
  | cons y r ih =>
    unfold insertSorted
    by_cases hxy : lexLe x y = true
    · rw [if_pos hxy, List.mem_cons]
    · rw [if_neg hxy, List.mem_cons, ih, List.mem_cons]
      tauto

lemma mem_sortKeys {a : List Char} {l : List (List Char)} :
    a ∈ sortKeys l ↔ a ∈ l := by
  induction l with
  | nil => exact Iff.rfl
  | cons x r ih =>
    unfold sortKeys
    rw [mem_insertSorted, ih, List.mem_cons]

lemma dedupAdj_cons_cons (x y : List Char) (r : List (List Char)) :
    dedupAdj (x :: y :: r) =
      if x = y then dedupAdj (y :: r) else x :: dedupAdj (y :: r) := rfl

lemma dedupAdj_head (y : List Char) (r : List (List Char)) :
    (dedupAdj (y :: r)).head? = some y := by
  induction r generalizing y with
  | nil => rfl
  | cons z t ih =>
    rw [dedupAdj_cons_cons]
    by_cases h : y = z
    · rw [if_pos h, ih z, h]
    · rw [if_neg h]
      rfl

lemma mem_dedupAdj {a : List Char} : ∀ {l : List (List Char)},
    a ∈ dedupAdj l ↔ a ∈ l := by
  intro l
  induction l with
  | nil => exact Iff.rfl
  | cons x r ih =>
    rcases r with _ | ⟨y, t⟩
    · exact Iff.rfl
    · rw [dedupAdj_cons_cons]
      by_cases h : x = y
      · rw [if_pos h, ih, List.mem_cons, List.mem_cons, List.mem_cons]
        subst h
        tauto
      · rw [if_neg h, List.mem_cons, ih, List.mem_cons, List.mem_cons,
          List.mem_cons]

lemma chain'_dedupAdj : ∀ {l : List (List Char)},
    List.Chain' (fun a b => lexLe a b = true) l →
    List.Chain' (fun a b => lexLe a b = true ∧ a ≠ b) (dedupAdj l) := by
  intro l
  induction l with
  | nil => intro h; simp [dedupAdj]
  | cons x r ih =>
    intro h
    rcases r with _ | ⟨y, t⟩
    · simp [dedupAdj]
    · rw [dedupAdj_cons_cons]
      have h1 := (List.chain'_cons'.mp h).1 y rfl
      have h2 := (List.chain'_cons'.mp h).2
      by_cases hxy : x = y
      · rw [if_pos hxy]
        exact ih h2
      · rw [if_neg hxy]
        rw [List.chain'_cons']
        refine ⟨?_, ih h2⟩
        intro z hz
        rw [Option.mem_def, dedupAdj_head y t] at hz
        injection hz with hz
        subst hz
        exact ⟨h1, hxy⟩

lemma nodup_dedupAdj_of_sorted {l : List (List Char)}
    (h : List.Chain' (fun a b => lexLe a b = true) l) :
    (dedupAdj l).Nodup := by
  have htrans : ∀ a b c : List Char,
      (lexLe a b = true ∧ a ≠ b) → (lexLe b c = true ∧ b ≠ c) →
      (lexLe a c = true ∧ a ≠ c) := by
    rintro a b c ⟨h1, h2⟩ ⟨h3, h4⟩
    refine ⟨lexLe_trans h1 h3, ?_⟩
    rintro rfl
    exact h2 (lexLe_antisymm h1 h3)
  haveI : IsTrans (List Char) (fun a b => lexLe a b = true ∧ a ≠ b) :=
    ⟨fun a b c => htrans a b c⟩
  have hp := List.chain'_iff_pairwise.mp (chain'_dedupAdj h)
  exact hp.imp (fun hab => hab.2)

/-- The pair sequence in the order `encodeQuery` writes it: each distinct
key in sorted order, with its values in original order. -/
def encPairs (ps : List (List Char × List Char)) : List (List Char × List Char) :=
  (dedupAdj (sortKeys (ps.map Prod.fst))).flatMap
    (fun k => (ps.filter (fun p => p.1 = k)).map (fun p => (k, p.2)))

lemma encodeQuery_eq (ps : List (List Char × List Char)) :
    encodeQuery ps = joinAmp ((encPairs ps).map (fun p => p.1 ++ '=' :: p.2)) := by
  unfold encodeQuery encPairs
  rw [List.map_flatMap]
  simp only [List.map_map]
  rfl

lemma mem_encPairs {ps : List (List Char × List Char)} {x : List Char × List Char}
    (hx : x ∈ encPairs ps) : x ∈ ps := by
  unfold encPairs at hx
  rw [List.mem_flatMap] at hx
  obtain ⟨k, hk, hx2⟩ := hx
  rw [List.mem_map] at hx2
  obtain ⟨p, hp, rfl⟩ := hx2
  rw [List.mem_filter] at hp
  have hk2 : p.1 = k := by simpa using hp.2
  rw [← hk2, Prod.mk.eta]
  exact hp.1

lemma filterMap_some_eq_self {α : Type} {f : α → Option α} {l : List α}
    (hf : ∀ a ∈ l, f a = some a) : l.filterMap f = l := by
  induction l with
  | nil => rfl
  | cons a r ih =>
    rw [List.filterMap_cons, hf a (List.mem_cons_self a r),
      ih (fun b hb => hf b (List.mem_cons_of_mem a hb))]

lemma dropWhile_head_false {p : Char → Bool} :
    ∀ {l : List Char} {c : Char} {r : List Char},
    l.dropWhile p = c :: r → p c = false := by
  intro l
  induction l with
  | nil =>
    intro c r h
    exact absurd h (by simp)
  | cons a t ih =>
    intro c r h
    rw [List.dropWhile_cons] at h
    by_cases hp : p a = true
    · rw [if_pos hp] at h
      exact ih h
    · rw [if_neg hp] at h
      injection h with h1 h2
      subst h1
      exact Bool.eq_false_of_ne_true hp

lemma cutEq_spec (seg : List Char) :
    (∃ v, seg.dropWhile (fun c => !(c = '=')) = '=' :: v ∧
      cutEq seg = (seg.takeWhile (fun c => !(c = '=')), v)) ∨
    (('=' : Char) ∉ seg ∧ cutEq seg = (seg, [])) := by
  unfold cutEq
  rcases hd : seg.dropWhile (fun c => !(c = '=')) with _ | ⟨c0, v⟩
  · right
    refine ⟨?_, rfl⟩
    intro hm
    have h2 := (List.dropWhile_eq_nil_iff.mp hd) _ hm
    simp at h2
  · have hc0 : (!decide (c0 = '=')) = false := dropWhile_head_false hd
    have hc1 : c0 = '=' := by simpa using hc0
    subst hc1
    left
    exact ⟨v, rfl, rfl⟩

lemma not_mem_of_count {v tk : List Char}
    (htk : ∀ c ∈ tk, (!(c = '=')) = true)
    (hcnt : ((tk ++ '=' :: v).filter (fun c => c = '=')).length ≤ 1) :
    ('=' : Char) ∉ v := by
  rw [List.filter_append, List.filter_cons] at hcnt
  have h1 : tk.filter (fun c => decide (c = '=')) = [] := by
    rw [List.filter_eq_nil_iff]
    intro a ha
    have h2 := htk a ha
    simp at h2 ⊢
    exact h2
  rw [h1, List.nil_append, if_pos (by simp)] at hcnt
  rw [List.length_cons] at hcnt
  intro hm
  have h3 : ('=' : Char) ∈ v.filter (fun c => decide (c = '=')) :=
    List.mem_filter.mpr ⟨hm, by simp⟩
  have h4 := List.length_pos.mpr (List.ne_nil_of_mem h3)
  omega

lemma validQuery_facts {q : List Char} (hq : validQuery q = true) :
    (∀ c ∈ q, (queryChar c || c = '=' || c = '&') = true) ∧
    ∀ seg ∈ splitOnChar '&' q, (seg.filter (fun c => c = '=')).length ≤ 1 := by
  unfold validQuery at hq
  rw [Bool.and_eq_true, List.all_eq_true, List.all_eq_true] at hq
  refine ⟨hq.1, fun seg hs => ?_⟩
  have h2 := hq.2 seg hs
  rwa [decide_eq_true_eq] at h2

lemma queryChar_all_not_mem {l : List Char} (h : ∀ c ∈ l, queryChar c = true) :
    ('&' : Char) ∉ l ∧ ('=' : Char) ∉ l := by
  refine ⟨fun hm => ?_, fun hm => ?_⟩
  · have h2 := h _ hm
    revert h2
    decide
  · have h2 := h _ hm
    revert h2
    decide

lemma parseQuery_chars {q : List Char} (hq : validQuery q = true) :
    ∀ p ∈ parseQuery q,
      (∀ c ∈ p.1, queryChar c = true) ∧ (∀ c ∈ p.2, queryChar c = true) := by
  obtain ⟨hc1, hc2⟩ := validQuery_facts hq
  intro p hp
  unfold parseQuery at hp
  rw [List.mem_filterMap] at hp
  obtain ⟨seg, hseg, hcond⟩ := hp
  by_cases hemp : seg.isEmpty = true
  · rw [if_pos hemp] at hcond
    exact absurd hcond (by simp)
  · rw [if_neg hemp] at hcond
    injection hcond with hcond
    subst hcond
    have hsegq : ∀ c ∈ seg, c ∈ q := fun c hc => mem_of_mem_splitOnChar hseg hc
    have hamp : ('&' : Char) ∉ seg := not_mem_of_mem_splitOnChar hseg
    have hkchar : ∀ c ∈ seg, c ≠ '=' → queryChar c = true := by
      intro c hc hne
      have h3 := hc1 c (hsegq c hc)
      rw [Bool.or_eq_true, Bool.or_eq_true] at h3
      rcases h3 with (h4 | h4) | h4
      · exact h4
      · rw [decide_eq_true_eq] at h4
        exact absurd h4 hne
      · rw [decide_eq_true_eq] at h4
        exact absurd (h4 ▸ hc) hamp
    rcases cutEq_spec seg with ⟨v, hdv, hce⟩ | ⟨hnm, hce⟩
    · rw [hce]
      have hseg2 : seg = seg.takeWhile (fun c => !(c = '=')) ++ '=' :: v := by
        rw [← hdv]
        exact (List.takeWhile_append_dropWhile _ _).symm
      constructor
      · intro c hc
        have hmem : c ∈ seg := (List.takeWhile_sublist _).subset hc
        have hne : c ≠ '=' := by
          have h5 := List.mem_takeWhile_imp hc
          simpa using h5
        exact hkchar c hmem hne
      · intro c hc
        have hmem : c ∈ seg := by
          rw [hseg2]
          exact List.mem_append.mpr (Or.inr (List.mem_cons_of_mem _ hc))
        have hcnt := hc2 seg hseg
        rw [hseg2] at hcnt
        have htk2 : ∀ c2 ∈ seg.takeWhile (fun c => !(c = '=')), (!(c2 = '=')) = true := by
          intro c2 hc2m
          have h6 := List.mem_takeWhile_imp hc2m
          exact h6
        have hnv := not_mem_of_count htk2 hcnt
        exact hkchar c hmem (fun he => hnv (he ▸ hc))
    · rw [hce]
      exact ⟨fun c hc => hkchar c hc (fun he => hnm (he ▸ hc)),
        fun c hc => absurd hc (by simp)⟩

lemma encSegs_amp_free {ps : List (List Char × List Char)}
    (hamp : ∀ p ∈ ps, ('&' : Char) ∉ p.1 ∧ ('&' : Char) ∉ p.2) :
    ∀ s ∈ (encPairs ps).map (fun p => p.1 ++ '=' :: p.2), ('&' : Char) ∉ s := by
  intro s hs
  rw [List.mem_map] at hs
  obtain ⟨p, hp, rfl⟩ := hs
  have h2 := hamp p (mem_encPairs hp)
  intro hm
  rcases List.mem_append.mp hm with h3 | h3
  · exact h2.1 h3
  · rcases List.mem_cons.mp h3 with h4 | h4
    · exact absurd h4 (by decide)
    · exact h2.2 h4

lemma parseQuery_encodeQuery {ps : List (List Char × List Char)}
    (hamp : ∀ p ∈ ps, ('&' : Char) ∉ p.1 ∧ ('&' : Char) ∉ p.2)
    (heq : ∀ p ∈ ps, ('=' : Char) ∉ p.1) :
    parseQuery (encodeQuery ps) = encPairs ps := by
  by_cases hn : encPairs ps = []
  · rw [encodeQuery_eq, hn]
    exact parseQuery_nil
  · rw [encodeQuery_eq]
    unfold parseQuery
    rw [splitOnChar_joinAmp
      (fun hmap => hn (List.map_eq_nil_iff.mp hmap)) (encSegs_amp_free hamp)]
    rw [List.filterMap_map]
    apply filterMap_some_eq_self
    intro p hp
    have hk := heq p (mem_encPairs hp)
    show (if (p.1 ++ '=' :: p.2).isEmpty = true then none
      else some (cutEq (p.1 ++ '=' :: p.2))) = some p
    have hemp : (p.1 ++ '=' :: p.2).isEmpty = false := by
      rcases hp1 : p.1 with _ | ⟨c, r⟩
      · rfl
      · rfl
    rw [hemp, if_neg Bool.false_ne_true, cutEq_encode hk, Prod.mk.eta]

lemma delTrackers_encPairs {ps : List (List Char × List Char)}
    (h : ∀ p ∈ ps, trackingParams.contains p.1 = false) :
    delTrackers (encPairs ps) = encPairs ps := by
  unfold delTrackers
  rw [List.filter_eq_self]
  intro p hp
  rw [h p (mem_encPairs hp)]
  rfl

lemma validQuery_encodeQuery {ps : List (List Char × List Char)}
    (hchar : ∀ p ∈ ps,
      (∀ c ∈ p.1, queryChar c = true) ∧ (∀ c ∈ p.2, queryChar c = true)) :
    validQuery (encodeQuery ps) = true := by
  have hamp : ∀ p ∈ ps, ('&' : Char) ∉ p.1 ∧ ('&' : Char) ∉ p.2 :=
    fun p hp => ⟨(queryChar_all_not_mem (hchar p hp).1).1,
      (queryChar_all_not_mem (hchar p hp).2).1⟩
  unfold validQuery
  rw [Bool.and_eq_true, List.all_eq_true, List.all_eq_true]
  constructor
  · intro c hc
    rw [encodeQuery_eq] at hc
    rcases mem_joinAmp hc with rfl | ⟨s, hs, hcs⟩
    · decide
    · rw [List.mem_map] at hs
      obtain ⟨p, hp, rfl⟩ := hs
      have hpc := hchar p (mem_encPairs hp)
      rw [Bool.or_eq_true, Bool.or_eq_true]
      rcases List.mem_append.mp hcs with h1 | h1
      · exact Or.inl (Or.inl (hpc.1 c h1))
      · rcases List.mem_cons.mp h1 with rfl | h2
        · exact Or.inl (Or.inr (by decide))
        · exact Or.inl (Or.inl (hpc.2 c h2))
  · intro seg hseg
    by_cases hn : encPairs ps = []
    · rw [encodeQuery_eq, hn] at hseg
      have h2 : seg ∈ [([] : List Char)] := hseg
      rw [List.mem_singleton] at h2
      subst h2
      decide
    · rw [encodeQuery_eq,
        splitOnChar_joinAmp (fun hmap => hn (List.map_eq_nil_iff.mp hmap))
          (encSegs_amp_free hamp)] at hseg
      rw [List.mem_map] at hseg
      obtain ⟨p, hp, rfl⟩ := hseg
      have hpc := hchar p (mem_encPairs hp)
      rw [decide_eq_true_eq, List.filter_append, List.filter_cons]
      have h1 : p.1.filter (fun c => decide (c = '=')) = [] := by
        rw [List.filter_eq_nil_iff]
        intro a ha
        have h3 := (queryChar_all_not_mem hpc.1).2
        simp only [decide_eq_true_eq]
        exact fun he => h3 (he ▸ ha)
      have h2 : p.2.filter (fun c => decide (c = '=')) = [] := by
        rw [List.filter_eq_nil_iff]
        intro a ha
        have h3 := (queryChar_all_not_mem hpc.2).2
        simp only [decide_eq_true_eq]
        exact fun he => h3 (he ▸ ha)
      rw [h1, h2, List.nil_append, if_pos (by simp)]
      simp

lemma chain'_const {k : List Char} {l : List (List Char)}
    (h : ∀ x ∈ l, x = k) :
    List.Chain' (fun a b => lexLe a b = true) l := by
  induction l with
  | nil => simp
  | cons a r ih =>
    rw [List.chain'_cons']
    refine ⟨?_, ih (fun x hx => h x (List.mem_cons_of_mem a hx))⟩
    intro z hz
    rw [h a (List.mem_cons_self a r), h z (List.mem_cons_of_mem a (List.mem_of_mem_head? hz))]
    exact lexLe_refl k

lemma chain'_flatMap_blocks {D : List (List Char)} {n : List Char → List (List Char)}
    (hD : List.Chain' (fun a b => lexLe a b = true) D)
    (hne : ∀ k ∈ D, n k ≠ [])
    (hconst : ∀ k ∈ D, ∀ x ∈ n k, x = k) :
    List.Chain' (fun a b => lexLe a b = true) (D.flatMap n) := by
  induction D with
  | nil => simp
  | cons k1 rest ih =>
    rw [List.flatMap_cons, List.chain'_append]
    refine ⟨chain'_const (hconst k1 (List.mem_cons_self k1 rest)),
      ih (List.chain'_cons'.mp hD).2
        (fun k hk => hne k (List.mem_cons_of_mem k1 hk))
        (fun k hk => hconst k (List.mem_cons_of_mem k1 hk)), ?_⟩
    intro x hx y hy
    have hx2 : x = k1 :=
      hconst k1 (List.mem_cons_self k1 rest) x (List.mem_of_mem_getLast? hx)
    subst hx2
    rcases rest with _ | ⟨k2, rest2⟩
    · simp at hy
    · rw [List.flatMap_cons,
        List.head?_append_of_ne_nil _ (hne k2 (List.mem_cons_of_mem x (List.mem_cons_self k2 rest2)))] at hy
      have hy2 : y = k2 :=
        hconst k2 (List.mem_cons_of_mem x (List.mem_cons_self k2 rest2)) y
          (List.mem_of_mem_head? hy)
      subst hy2
      exact (List.chain'_cons'.mp hD).1 y rfl

lemma dedupAdj_const {k : List Char} : ∀ {l : List (List Char)}, l ≠ [] →
    (∀ x ∈ l, x = k) → dedupAdj l = [k] := by
  intro l
  induction l with
  | nil =>
    intro h
    exact absurd rfl h
  | cons a r ih =>
    intro _ hc
    rcases r with _ | ⟨b, t⟩
    · rw [show dedupAdj [a] = [a] from rfl, hc a (List.mem_cons_self a [])]
    · rw [dedupAdj_cons_cons,
        if_pos (by rw [hc a (List.mem_cons_self a (b :: t)),
          hc b (List.mem_cons_of_mem a (List.mem_cons_self b t))])]
      exact ih (by simp) (fun x hx => hc x (List.mem_cons_of_mem a hx))

lemma dedupAdj_append_block {k : List Char} :
    ∀ {b : List (List Char)} (r : List (List Char)), b ≠ [] →
    (∀ x ∈ b, x = k) → ∀ {k2 : List Char}, r.head? = some k2 → k ≠ k2 →
    dedupAdj (b ++ r) = k :: dedupAdj r := by
  intro b
  induction b with
  | nil =>
    intro r h
    exact absurd rfl h
  | cons a bb ih =>
    intro r _ hc k2 hr hne
    have hak : a = k := hc a (List.mem_cons_self a bb)
    subst hak
    rcases bb with _ | ⟨a2, bb2⟩
    · simp only [List.cons_append, List.nil_append]
      rcases r with _ | ⟨c, t⟩
      · simp at hr
      · injection hr with hr
        subst hr
        rw [dedupAdj_cons_cons, if_neg hne]
    · have ha2 : a2 = a := hc a2 (List.mem_cons_of_mem a (List.mem_cons_self a2 bb2))
      simp only [List.cons_append]
      rw [dedupAdj_cons_cons, if_pos ha2.symm]
      exact ih r (by simp) (fun x hx => hc x (List.mem_cons_of_mem a hx)) hr hne

lemma dedupAdj_flatMap_blocks : ∀ {D : List (List Char)} {n : List Char → List (List Char)},
    List.Chain' (fun a b => a ≠ b) D →
    (∀ k ∈ D, n k ≠ []) →
    (∀ k ∈ D, ∀ x ∈ n k, x = k) →
    dedupAdj (D.flatMap n) = D := by
  intro D
  induction D with
  | nil =>
    intro n _ _ _
    rfl
  | cons k1 rest ih =>
    intro n hstrict hne hconst
    rw [List.flatMap_cons]
    rcases rest with _ | ⟨k2, rest2⟩
    · simp only [List.flatMap_nil, List.append_nil]
      exact dedupAdj_const (hne k1 (List.mem_cons_self k1 []))
        (hconst k1 (List.mem_cons_self k1 []))
    · have hk2ne : n k2 ≠ [] :=
        hne k2 (List.mem_cons_of_mem k1 (List.mem_cons_self k2 rest2))
      have hh : ((k2 :: rest2).flatMap n).head? = some k2 := by
        rw [List.flatMap_cons, List.head?_append_of_ne_nil _ hk2ne]
        rcases hb : n k2 with _ | ⟨c, t⟩
        · exact absurd hb hk2ne
        · have hck : c = k2 :=
            hconst k2 (List.mem_cons_of_mem k1 (List.mem_cons_self k2 rest2)) c
              (by rw [hb]; exact List.mem_cons_self c t)
          rw [hck]
          rfl
      rw [dedupAdj_append_block _ (hne k1 (List.mem_cons_self k1 (k2 :: rest2)))
        (hconst k1 (List.mem_cons_self k1 (k2 :: rest2))) hh
        ((List.chain'_cons'.mp hstrict).1 k2 rfl)]
      rw [ih (List.chain'_cons'.mp hstrict).2
        (fun k hk => hne k (List.mem_cons_of_mem k1 hk))
        (fun k hk => hconst k (List.mem_cons_of_mem k1 hk))]

lemma flatMap_filter {α β : Type} (l : List α) (g : α → List β) (q : β → Bool) :
    (l.flatMap g).filter q = l.flatMap (fun a => (g a).filter q) := by
  induction l with
  | nil => rfl
  | cons a r ih => rw [List.flatMap_cons, List.flatMap_cons, List.filter_append, ih]

lemma flatMap_single {α β : Type} : ∀ {D : List α} {n : α → List β}, D.Nodup →
    ∀ {k : α}, k ∈ D → (∀ k2 ∈ D, k2 ≠ k → n k2 = []) → D.flatMap n = n k := by
  intro D
  induction D with
  | nil =>
    intro n _ k hk
    simp at hk
  | cons a r ih =>
    intro n hnd k hk hz
    rw [List.flatMap_cons]
    rcases List.mem_cons.mp hk with rfl | hk2
    · have h0 : r.flatMap n = [] := by
        rw [List.flatMap_eq_nil_iff]
        intro k2 hk2
        exact hz k2 (List.mem_cons_of_mem k hk2)
          (fun he => (List.nodup_cons.mp hnd).1 (he ▸ hk2))
      rw [h0, List.append_nil]
    · rw [hz a (List.mem_cons_self a r)
        (fun he => (List.nodup_cons.mp hnd).1 (he ▸ hk2)), List.nil_append]
      exact ih (List.nodup_cons.mp hnd).2 hk2
        (fun k2 h2 hne => hz k2 (List.mem_cons_of_mem a h2) hne)

lemma flatMap_congr_mem {α β : Type} {l : List α} {f g : α → List β}
    (h : ∀ a ∈ l, f a = g a) : l.flatMap f = l.flatMap g := by
  induction l with
  | nil => rfl
  | cons a r ih =>
    rw [List.flatMap_cons, List.flatMap_cons, h a (List.mem_cons_self a r),
      ih (fun b hb => h b (List.mem_cons_of_mem a hb))]

lemma map_fst_encPairs (ps : List (List Char × List Char)) :
    (encPairs ps).map Prod.fst =
      (dedupAdj (sortKeys (ps.map Prod.fst))).flatMap
        (fun k => (ps.filter (fun p => p.1 = k)).map (fun _ => k)) := by
  unfold encPairs
  rw [List.map_flatMap]
  simp only [List.map_map]
  rfl

lemma filter_encPairs {ps : List (List Char × List Char)} {k : List Char}
    (hk : k ∈ dedupAdj (sortKeys (ps.map Prod.fst))) :
    (encPairs ps).filter (fun p => p.1 = k) =
      (ps.filter (fun p => p.1 = k)).map (fun p => (k, p.2)) := by
  have hnodup := nodup_dedupAdj_of_sorted (chain'_sortKeys (ps.map Prod.fst))
  unfold encPairs
  rw [flatMap_filter]
  have hz : ∀ k2 ∈ dedupAdj (sortKeys (ps.map Prod.fst)), k2 ≠ k →
      ((ps.filter (fun p => p.1 = k2)).map (fun p => (k2, p.2))).filter
        (fun p => p.1 = k) = [] := by
    intro k2 _ hne
    rw [List.filter_eq_nil_iff]
    intro p hp
    rw [List.mem_map] at hp
    obtain ⟨p2, hp2, rfl⟩ := hp
    simp only [decide_eq_true_eq]
    exact hne
  rw [flatMap_single hnodup hk hz, List.filter_eq_self]
  intro p hp
  rw [List.mem_map] at hp
  obtain ⟨p2, hp2, rfl⟩ := hp
  simp

lemma encodeQuery_encPairs (ps : List (List Char × List Char)) :
    encodeQuery (encPairs ps) = encodeQuery ps := by
  have hchainS := chain'_sortKeys (ps.map Prod.fst)
  have hchainD : List.Chain' (fun a b => lexLe a b = true)
      (dedupAdj (sortKeys (ps.map Prod.fst))) :=
    List.Chain'.imp (fun a b hab => hab.1) (chain'_dedupAdj hchainS)
  have hstrictD : List.Chain' (fun a b => a ≠ b)
      (dedupAdj (sortKeys (ps.map Prod.fst))) :=
    List.Chain'.imp (fun a b hab => hab.2) (chain'_dedupAdj hchainS)
  have hmemD : ∀ k ∈ dedupAdj (sortKeys (ps.map Prod.fst)),
      ps.filter (fun p => p.1 = k) ≠ [] := by
    intro k hk
    have h2 : k ∈ ps.map Prod.fst := mem_sortKeys.mp (mem_dedupAdj.mp hk)
    rw [List.mem_map] at h2
    obtain ⟨p, hp, rfl⟩ := h2
    exact List.ne_nil_of_mem (List.mem_filter.mpr ⟨hp, by simp⟩)
  have hkne : ∀ k ∈ dedupAdj (sortKeys (ps.map Prod.fst)),
      (ps.filter (fun p => p.1 = k)).map (fun _ => k) ≠ [] :=
    fun k hk hm => hmemD k hk (List.map_eq_nil_iff.mp hm)
  have hkconst : ∀ k ∈ dedupAdj (sortKeys (ps.map Prod.fst)),
      ∀ x ∈ (ps.filter (fun p => p.1 = k)).map (fun _ => k), x = k := by
    intro k hk x hx
    rw [List.mem_map] at hx
    obtain ⟨p, hp, rfl⟩ := hx
    rfl
  have hsorted : List.Chain' (fun a b => lexLe a b = true)
      ((encPairs ps).map Prod.fst) := by
    rw [map_fst_encPairs]
    exact chain'_flatMap_blocks hchainD hkne hkconst
  unfold encodeQuery
  rw [sortKeys_eq_self hsorted, map_fst_encPairs,
    dedupAdj_flatMap_blocks hstrictD hkne hkconst]
  congr 1
  apply flatMap_congr_mem
  intro k hk
  rw [filter_encPairs hk, List.map_map]
  rfl

lemma normQuery_idem {q : List Char} (hq : validQuery q = true) :
    normQuery (normQuery q) = normQuery q := by
  have hchar : ∀ p ∈ delTrackers (parseQuery q),
      (∀ c ∈ p.1, queryChar c = true) ∧ (∀ c ∈ p.2, queryChar c = true) :=
    fun p hp => parseQuery_chars hq p (List.mem_filter.mp hp).1
  have hamp : ∀ p ∈ delTrackers (parseQuery q),
      ('&' : Char) ∉ p.1 ∧ ('&' : Char) ∉ p.2 :=
    fun p hp => ⟨(queryChar_all_not_mem (hchar p hp).1).1,
      (queryChar_all_not_mem (hchar p hp).2).1⟩
  have heq2 : ∀ p ∈ delTrackers (parseQuery q), ('=' : Char) ∉ p.1 :=
    fun p hp => (queryChar_all_not_mem (hchar p hp).1).2
  have htr : ∀ p ∈ delTrackers (parseQuery q),
      trackingParams.contains p.1 = false := by
    intro p hp
    have h2 := (List.mem_filter.mp hp).2
    simpa using h2
  show encodeQuery (delTrackers (parseQuery (normQuery q))) = normQuery q
  unfold normQuery
  rw [parseQuery_encodeQuery hamp heq2, delTrackers_encPairs htr,
    encodeQuery_encPairs]

lemma validQuery_normQuery {q : List Char} (hq : validQuery q = true) :
    validQuery (normQuery q) = true := by
  have hchar : ∀ p ∈ delTrackers (parseQuery q),
      (∀ c ∈ p.1, queryChar c = true) ∧ (∀ c ∈ p.2, queryChar c = true) :=
    fun p hp => parseQuery_chars hq p (List.mem_filter.mp hp).1
  exact validQuery_encodeQuery hchar

lemma normalizeTransform_valid {g : GoURL}
    (hs : validScheme g.scheme = true) (hh : validHost g.host = true)
    (hp : validPath g.path = true) (hq : validQuery g.query = true) :
    validScheme (normalizeTransform g).scheme = true ∧
    validHost (normalizeTransform g).host = true ∧
    validPath (normalizeTransform g).path = true ∧
    validQuery (normalizeTransform g).query = true ∧
    validFrag (normalizeTransform g).fragment = true := by
  refine ⟨validScheme_map_goToLower hs, validHost_map_goToLower hh,
    validPath_normPath hp, ?_, rfl⟩
  show validQuery (if g.query.isEmpty then [] else normQuery g.query) = true
  by_cases he : g.query.isEmpty = true
  · rw [if_pos he]
    rfl
  · rw [if_neg he]
    exact validQuery_normQuery hq

lemma normalizeTransform_idem {g : GoURL} (hq : validQuery g.query = true)
    (hpath : normPath g.path = ['/'] ∨ (normPath g.path).getLast? ≠ some '/') :
    normalizeTransform (normalizeTransform g) = normalizeTransform g := by
  obtain ⟨sch, host, path, q, f⟩ := g
  unfold normalizeTransform
  rw [GoURL.mk.injEq]
  refine ⟨?_, ?_, ?_, ?_, rfl⟩
  · rw [List.map_map]
    exact List.map_congr_left (fun a _ => goToLower_idem a)
  · rw [List.map_map]
    exact List.map_congr_left (fun a _ => goToLower_idem a)
  · exact normPath_idem hpath
  · show (if (if q.isEmpty then [] else normQuery q).isEmpty then []
      else normQuery (if q.isEmpty then [] else normQuery q)) =
      (if q.isEmpty then [] else normQuery q)
    by_cases he : q.isEmpty = true
    · rw [if_pos he]
      rfl
    · rw [if_neg he]
      by_cases h2 : (normQuery q).isEmpty = true
      · rw [if_pos h2]
        exact (List.isEmpty_iff.mp h2).symm
      · rw [if_neg h2]
        exact normQuery_idem hq

/-- C8: `NormalizeURL` is idempotent on every well-formed absolute URL of
the parse domain whose path, after the single trailing-slash trim, is
either exactly the root path `/` or no longer ends in a slash: the first
normalization succeeds and normalizing its output reproduces it
unchanged.  (The unamended universal claim fails on paths ending in
several slashes, `normalizeURL_idempotent_cex`, because
`strings.TrimSuffix` removes only one slash per application.) -/
theorem normalizeURL_idempotent_amended (s : List Char) (g : GoURL)
    (hparse : parseGoURL s = some g)
    (hpath : normPath g.path = ['/'] ∨ (normPath g.path).getLast? ≠ some '/') :
    ∃ n1, NormalizeURL s = some n1 ∧ NormalizeURL n1 = some n1 := by
  obtain ⟨hs, hh, hp, hq, hf⟩ := parseGoURL_valid hparse
  obtain ⟨hs2, hh2, hp2, hq2, hf2⟩ := normalizeTransform_valid hs hh hp hq
  refine ⟨urlString (normalizeTransform g), ?_, ?_⟩
  · unfold NormalizeURL
    rw [hparse]
    rfl
  · unfold NormalizeURL
    rw [parseGoURL_urlString hs2 hh2 hp2 hq2 hf2]
    show some (urlString (normalizeTransform (normalizeTransform g))) =
      some (urlString (normalizeTransform g))
    rw [normalizeTransform_idem hq hpath]

/-- Witness for C8: a concrete URL with uppercase host letters, a
tracking parameter, unsorted keys and a fragment is normalized
idempotently. -/
theorem normalizeURL_idempotent_amended_witness :
    (parseGoURL ("https://Example.com/docs?b=2&utm_source=x&a=1#top" : String).toList =
      some ⟨("https" : String).toList, ("Example.com" : String).toList,
        ("/docs" : String).toList, ("b=2&utm_source=x&a=1" : String).toList,
        ("top" : String).toList⟩) ∧
    (normPath ("/docs" : String).toList = ['/'] ∨
      (normPath ("/docs" : String).toList).getLast? ≠ some '/') ∧
    ∃ n1, NormalizeURL ("https://Example.com/docs?b=2&utm_source=x&a=1#top" : String).toList =
        some n1 ∧ NormalizeURL n1 = some n1 :=
  ⟨by decide, by decide,
    normalizeURL_idempotent_amended
      ("https://Example.com/docs?b=2&utm_source=x&a=1#top" : String).toList
      ⟨("https" : String).toList, ("Example.com" : String).toList,
        ("/docs" : String).toList, ("b=2&utm_source=x&a=1" : String).toList,
        ("top" : String).toList⟩
      (by decide) (by decide)⟩

end Hermit
